import Mathlib

/-!
# goki: the random key generator and the declaration merger

A shallow embedding of `main.go`: `randString`, `writeOrAppendKey`, `looksLikeKeysPackage`
and `keyExists`, with the library routines they call (`strings.Split`, `strings.TrimSpace`,
`strings.HasPrefix`, `strings.Fields`, the `%q` verb of `fmt.Sprintf`, `crypto/rand.Read`
and the `os` file operations) modelled next to them.

Conventions of the embedding:
* a Go `string` is a list of Unicode code points (`Str`); file contents are valid UTF-8 text;
* a Go `byte` is a natural number reduced modulo 256, a Go `int` is an `Int`; the width
  of `int` and the limit of `make` are those of a `Machine` (`randStringOn`);
* the file at `outPath` is an `Option Str` (`none` when it does not exist) that is passed
  through `writeOrAppendKey` explicitly, the other return value being Go's `error`
  (`none` for `nil`);
* the operating system may make one `os` call fail; which one is the `fault` argument;
* the entropy source is the sequence of results of the successive `rand.Read` calls;
* loops that need not terminate carry a fuel argument.
-/

namespace Goki

/-- Go `string`, as the list of its code points. -/
abbrev Str := List Char

/-! ## Library routines -/

/-- The predicate `unicode.IsSpace`: the Latin-1 spaces, then the `White_Space` table. -/
def isSpace (r : Char) : Bool :=
  let n := r.toNat
  if n ≤ 0xFF then
    n == 0x09 || n == 0x0A || n == 0x0B || n == 0x0C || n == 0x0D || n == 0x20
      || n == 0x85 || n == 0xA0
  else
    n == 0x1680 || (0x2000 ≤ n && n ≤ 0x200A) || n == 0x2028 || n == 0x2029
      || n == 0x202F || n == 0x205F || n == 0x3000

/-- The routine `strings.TrimSpace`: leading and trailing white space removed. -/
def trimSpace (s : Str) : Str :=
  (s.dropWhile isSpace).rdropWhile isSpace

/-- The routine `strings.HasPrefix`. -/
def hasPrefix : Str → Str → Bool
  | _, [] => true
  | [], _ :: _ => false
  | c :: s, d :: p => c == d && hasPrefix s p

/-- The routine `strings.Split(src, "\n")`: the pieces between the newlines
(one more piece than there are newlines). -/
def splitLines : Str → List Str
  | [] => [[]]
  | c :: cs =>
    if c = '\n' then [] :: splitLines cs
    else
      match splitLines cs with
      | [] => [[c]]
      | l :: ls => (c :: l) :: ls

/-- The scan of `strings.Fields`: `cur` is the field being read. -/
def fieldsFrom (cur : Str) : Str → List Str
  | [] => if cur.isEmpty then [] else [cur]
  | c :: cs =>
    if isSpace c then
      if cur.isEmpty then fieldsFrom [] cs else cur :: fieldsFrom [] cs
    else fieldsFrom (cur ++ [c]) cs

/-- The routine `strings.Fields`: the maximal runs of characters that are not white space. -/
def fields (s : Str) : List Str := fieldsFrom [] s

/-- The hexadecimal digits of `strconv`. -/
def lowerhex : Str := "0123456789abcdef".toList

/-- One hexadecimal digit: `lowerhex[r>>s&0xF]`. -/
def hexDigit (r s : Nat) : Char := lowerhex.getD (r / 2 ^ s % 16) '0'

/-- The predicate `strconv.IsPrint`: decided directly on Latin-1, by the Unicode
table `tbl` above it. -/
def isPrint (tbl : Char → Bool) (r : Char) : Bool :=
  let n := r.toNat
  if n ≤ 0xFF then
    if 0x20 ≤ n && n ≤ 0x7E then true
    else if 0xA1 ≤ n && n ≤ 0xFF then n != 0xAD
    else false
  else tbl r

/-- The escaping of one code point inside a double-quoted literal
(`appendEscapedRune` of `strconv`). -/
def escapeRune (tbl : Char → Bool) (r : Char) : Str :=
  if r = '"' ∨ r = '\\' then ['\\', r]
  else if isPrint tbl r then [r]
  else
    let n := r.toNat
    if n = 0x07 then ['\\', 'a']
    else if n = 0x08 then ['\\', 'b']
    else if n = 0x0C then ['\\', 'f']
    else if n = 0x0A then ['\\', 'n']
    else if n = 0x0D then ['\\', 'r']
    else if n = 0x09 then ['\\', 't']
    else if n = 0x0B then ['\\', 'v']
    else if n < 0x20 ∨ n = 0x7F then ['\\', 'x', hexDigit n 4, hexDigit n 0]
    else if n < 0x10000 then
      ['\\', 'u', hexDigit n 12, hexDigit n 8, hexDigit n 4, hexDigit n 0]
    else
      ['\\', 'U', hexDigit n 28, hexDigit n 24, hexDigit n 20, hexDigit n 16,
        hexDigit n 12, hexDigit n 8, hexDigit n 4, hexDigit n 0]

/-- The verb `%q` on a string (`strconv.Quote`): a double-quoted Go string literal. -/
def quote (tbl : Char → Bool) (s : Str) : Str :=
  '"' :: (s.flatMap (escapeRune tbl) ++ ['"'])

/-! ## The declaration merger -/

/-- The `os` calls of `writeOrAppendKey`, in the order in which they are made. -/
inductive IOOp
  | mkdirAll
  | stat
  | readFile
  | openFile
  | writeNewline
  | writeSeparator
  | writeLine
  | writeFile
  deriving DecidableEq

/-- The values of Go's `error` that the program returns. -/
inductive Error
  /-- an `os` call failed -/
  | os (op : IOOp)
  /-- "existing file does not appear to declare `package keys`" -/
  | notKeysPackage
  /-- "key %q already exists in %s" -/
  | keyAlreadyExists (keyName outPath : Str)
  /-- "length must be > 0" -/
  | badLength
  /-- an error of the entropy source -/
  | entropy (code : Nat)
  deriving DecidableEq

/-- The value of `fmt.Sprintf("const %s = %q\n", keyName, key)`. -/
def declLine (tbl : Char → Bool) (keyName key : Str) : Str :=
  "const ".toList ++ keyName ++ " = ".toList ++ quote tbl key ++ "\n".toList

/-- The loop of `looksLikeKeysPackage` over the lines. -/
def looksLikeKeysPackageLines : List Str → Bool
  | [] => false
  | ln :: rest =>
    let t := trimSpace ln
    if hasPrefix t "package ".toList then t == "package keys".toList
    else looksLikeKeysPackageLines rest

/-- The function `looksLikeKeysPackage`. -/
def looksLikeKeysPackage (src : Str) : Bool :=
  looksLikeKeysPackageLines (splitLines src)

/-- The loop of `keyExists` over the lines. -/
def keyExistsLines (keyName : Str) : List Str → Bool
  | [] => false
  | ln :: rest =>
    let t := trimSpace ln
    if !hasPrefix t "const ".toList then keyExistsLines keyName rest
    else
      let fs := fields t
      if decide (fs.length ≥ 2) && fs.get? 1 == some keyName then true
      else keyExistsLines keyName rest

/-- The function `keyExists`. -/
def keyExists (src keyName : Str) : Bool :=
  keyExistsLines keyName (splitLines src)

/-- The function `writeOrAppendKey`. `file` is the file at `outPath` before the call
(`none`: there is none), `fault` the `os` call that fails, if one does. The result is
the file after the call and the error returned. The directory tree is not modelled:
`os.MkdirAll` is a call that fails or not. A failing write writes nothing. -/
def writeOrAppendKey (tbl : Char → Bool) (fault : Option IOOp) (file : Option Str)
    (outPath keyName key : Str) : Option Str × Option Error :=
  if fault = some .mkdirAll then (file, some (.os .mkdirAll))
  else
    let line := declLine tbl keyName key
    if fault = some .stat then (file, some (.os .stat))
    else
      match file with
      | some src =>
        if fault = some .readFile then (file, some (.os .readFile))
        else if !looksLikeKeysPackage src then (file, some .notKeysPackage)
        else if keyExists src keyName then (file, some (.keyAlreadyExists keyName outPath))
        else if fault = some .openFile then (file, some (.os .openFile))
        else
          let needNewline := decide (src.length > 0) && src.getLast? != some '\n'
          if needNewline && fault = some .writeNewline then
            (some src, some (.os .writeNewline))
          else
            let f₁ := if needNewline then src ++ "\n".toList else src
            let needSeparator := decide ((trimSpace src).length > 0)
            if needSeparator && fault = some .writeSeparator then
              (some f₁, some (.os .writeSeparator))
            else
              let f₂ := if needSeparator then f₁ ++ "\n".toList else f₁
              if fault = some .writeLine then (some f₂, some (.os .writeLine))
              else (some (f₂ ++ line), none)
      | none =>
        let content := "package keys\n\n".toList ++ line
        if fault = some .writeFile then (none, some (.os .writeFile))
        else (some content, none)

/-! ## The random string generator -/

/-- The constant `alphabet`. -/
def alphabet : Str := "abcdefghijklmnopqrstuvwxyzABCDEFGHIJKLMNOPQRSTUVWXYZ0123456789".toList

/-- The local `alphabetLen := byte(len(alphabet))`. -/
def alphabetLen : Nat := alphabet.length % 256

/-- The local `maxMultiple := byte(256 / int(alphabetLen) * int(alphabetLen))`. -/
def maxMultiple : Nat := (256 / alphabetLen * alphabetLen) % 256

/-- The entropy source: the result of the `i`-th call of `rand.Read`, which is an error,
or the bytes that fill the buffer (byte `j` of the buffer is the value at `j`, modulo 256). -/
abbrev Source := Nat → Except Error (Nat → Nat)

/-- The buffer of `len` bytes after a successful `rand.Read`. -/
def readBuf (f : Nat → Nat) (len : Nat) : List Nat :=
  (List.range len).map (fun j => f j % 256)

/-- The inner loop of `randString`, `for _, b := range buf`, from the current `out`. -/
def fillFrom (n : Nat) : List Nat → Str → Str
  | [], out => out
  | b :: buf, out =>
    if b ≥ maxMultiple then fillFrom n buf out
    else
      let out₁ := out ++ [alphabet.get ⟨b % alphabetLen, Nat.mod_lt b (by decide)⟩]
      if out₁.length = n then out₁ else fillFrom n buf out₁

/-- The outer loop of `randString`, `for len(out) < n`: `reads` counts the calls of
`rand.Read` made so far. The result is the string, the error and the number of reads;
`none` when the fuel runs out. -/
def randLoop (src : Source) (n : Nat) : Nat → Nat → Str → Option (Str × Option Error × Nat)
  | 0, _, _ => none
  | fuel + 1, reads, out =>
    if out.length < n then
      match src reads with
      | .error e => some ([], some e, reads + 1)
      | .ok f => randLoop src n fuel (reads + 1) (fillFrom n (readBuf f (n * 2)) out)
    else some (out, none, reads)

/-- The function `randString` where its two slices can be made: the string returned, the
error returned and the number of calls of `rand.Read` made; `none` when the fuel runs out.
On a machine, where Go's `int` and the limit of `make` bound `n`, the function is
`randStringOn`; the two agree for every `n` within those bounds. -/
def randString (src : Source) (fuel : Nat) (n : Int) : Option (Str × Option Error × Nat) :=
  if n ≤ 0 then some ([], some .badLength, 0)
  else randLoop src n.toNat fuel 0 []

/-! ## Notions used to state the properties -/

/-- The characters `a`-`z`, `A`-`Z`, `0`-`9`. -/
def isAlnum (c : Char) : Bool :=
  ('a'.toNat ≤ c.toNat && c.toNat ≤ 'z'.toNat) || ('A'.toNat ≤ c.toNat && c.toNat ≤ 'Z'.toNat)
    || ('0'.toNat ≤ c.toNat && c.toNat ≤ '9'.toNat)

/-- A name is a token: it is not empty and holds no white space (every Go identifier
is one). -/
def isToken (k : Str) : Prop := k ≠ [] ∧ ∀ c ∈ k, isSpace c = false

instance (k : Str) : Decidable (isToken k) := by
  unfold isToken
  exact inferInstance

/-- The bytes of the `i`-th buffer (none when the read fails). -/
def batch (src : Source) (len i : Nat) : List Nat :=
  match src i with
  | .ok f => readBuf f len
  | .error _ => []

/-- The number of bytes below `maxMultiple` in the `k` buffers from the `a`-th on. -/
def acceptedFrom (src : Source) (len a : Nat) : Nat → Nat
  | 0 => 0
  | k + 1 => (batch src len a).countP (fun b => decide (b < maxMultiple))
      + acceptedFrom src len (a + 1) k

/-- A table for `strconv.IsPrint` with nothing printable above Latin-1 (for examples
whose texts are ASCII). -/
def noTable : Char → Bool := fun _ => false

/-- A source whose buffers hold the bytes `d, d+1, d+2, ...` at every read. -/
def countingSource (d : Nat) : Source := fun _ => .ok (fun j => d + j)

/-- A source that fails at its `k`-th read with the error `e`, and counts before. -/
def failingSource (k : Nat) (e : Error) : Source :=
  fun i => if i = k then .error e else .ok (fun j => 250 + j)

/-! ## Reference notions for the generator -/

/-- The outer loop of `randString` with the length of the buffer as a parameter
(`randString` itself reads `n * 2` bytes at a time). -/
def randLoopLen (len : Nat) (src : Source) (n : Nat) :
    Nat → Nat → Str → Option (Str × Option Error × Nat)
  | 0, _, _ => none
  | fuel + 1, reads, out =>
    if out.length < n then
      match src reads with
      | .error e => some ([], some e, reads + 1)
      | .ok f => randLoopLen len src n fuel (reads + 1) (fillFrom n (readBuf f len) out)
    else some (out, none, reads)

/-- The function `randString` with a buffer of `len` bytes. -/
def randStringLen (len : Nat) (src : Source) (fuel : Nat) (n : Int) :
    Option (Str × Option Error × Nat) :=
  if n ≤ 0 then some ([], some .badLength, 0)
  else randLoopLen len src n.toNat fuel 0 []

/-- The reference definition of the sampling, on one byte stream: delete every byte that
is 248 or more, take the first `n` bytes that remain, map each `b` to the character of
the alphabet at `b mod 62`. -/
def sampleOfStream (stream : List Nat) (n : Nat) : Str :=
  ((stream.filter (fun b => decide (b < 248))).take n).map
    (fun b => alphabet.getD (b % 62) 'a')

/-- The byte stream made of the `k` buffers from the `a`-th on, one after the other. -/
def streamFrom (src : Source) (len a : Nat) : Nat → List Nat
  | 0 => []
  | k + 1 => batch src len a ++ streamFrom src len (a + 1) k

/-- The source that delivers the byte stream `g` in buffers of `len` bytes. -/
def chunked (g : Nat → Nat) (len : Nat) : Source :=
  fun i => .ok (fun j => g (i * len + j))

/-! ## The generator on a machine -/

/-- The machine that runs the program: the number of bits of Go's `int`, and the largest
number of bytes that `make` can give a slice (above it `make` panics or the runtime stops
the program), which is below the largest `int`. -/
structure Machine where
  intBits : Nat
  maxAlloc : Nat
  maxAlloc_lt : maxAlloc < 2 ^ (intBits - 1)

/-- The value of an `int` expression: the two's complement wrap of the exact result. -/
def goInt (m : Machine) (x : Int) : Int :=
  (x + 2 ^ (m.intBits - 1)) % 2 ^ m.intBits - 2 ^ (m.intBits - 1)

/-- Whether `make([]byte, ...)` with this length or capacity returns. -/
def canMake (m : Machine) (len : Int) : Bool :=
  decide (0 ≤ len) && decide (len ≤ (m.maxAlloc : Int))

/-- How a call of `randString` ends: by a panic, or by returning a string, an error and
having made a number of reads. -/
inductive Outcome
  | panicked
  | returned (s : Str) (err : Option Error) (reads : Nat)
  deriving DecidableEq

/-- The function `randString` on a machine, with the two allocations
`make([]byte, 0, n)` and `make([]byte, n*2)` and `n*2` computed as an `int`; `none` when
the fuel runs out. -/
def randStringOn (m : Machine) (src : Source) (fuel : Nat) (n : Int) : Option Outcome :=
  if n ≤ 0 then some (.returned [] (some .badLength) 0)
  else if !canMake m n then some .panicked
  else if !canMake m (goInt m (n * 2)) then some .panicked
  else
    (randLoopLen (goInt m (n * 2)).toNat src n.toNat fuel 0 []).map
      (fun r => .returned r.1 r.2.1 r.2.2)

/-- A 64-bit machine whose slices hold at most `2^48` bytes (linux/amd64). -/
def amd64 : Machine := ⟨64, 2 ^ 48, by decide⟩

/-- A 64-bit machine that could give a slice `2^62` bytes. -/
def largeMemory64 : Machine := ⟨64, 2 ^ 62, by decide⟩

/-- A source that never fails and delivers only the byte 0. -/
def zeroSource : Source := fun _ => .ok (fun _ => 0)

/-! ## Reference notions for the scans -/

/-- The white-space-separated tokens of a text: the pieces between white space
characters, the empty pieces left out. -/
def tokens (s : Str) : List Str :=
  (s.splitOnP isSpace).filter (fun w => !w.isEmpty)

/-! ## Sequences of calls -/

/-- A sequence of calls of `writeOrAppendKey` on one path, one call for each pair of a
name and a value, with no `os` call failing: the file after the last call and the error
that each call returned. -/
def runCalls (tbl : Char → Bool) (outPath : Str) :
    Option Str → List (Str × Str) → Option Str × List (Option Error)
  | file, [] => (file, [])
  | file, (k, v) :: rest =>
    let r := writeOrAppendKey tbl none file outPath k v
    let rr := runCalls tbl outPath r.1 rest
    (rr.1, r.2 :: rr.2)

/-- The calls that returned no error, in call order. -/
def succeeded : List (Str × Str) → List (Option Error) → List (Str × Str)
  | kv :: calls, none :: errs => kv :: succeeded calls errs
  | _ :: calls, some _ :: errs => succeeded calls errs
  | _, _ => []

/-- The text of one declaration in a file of the tool: a blank line, then the line
`const <Name> = "<Value>"`. -/
def entryText (kv : Str × Str) : Str :=
  "\nconst ".toList ++ kv.1 ++ " = \"".toList ++ kv.2 ++ "\"\n".toList

/-- The two lines of one declaration in a file of the tool. -/
def entryLines (kv : Str × Str) : List Str :=
  [[], "const ".toList ++ kv.1 ++ " = \"".toList ++ kv.2 ++ "\"".toList]

/-! ## Changes of line ending and of white space around lines -/

/-- The text with every newline replaced by a carriage return and a newline. -/
def crlf : Str → Str
  | [] => []
  | c :: cs => if c = '\n' then '\r' :: '\n' :: crlf cs else c :: crlf cs

/-- The routine `strings.Join(lines, "\n")`: the lines with a newline between them. -/
def joinLines : List Str → Str
  | [] => []
  | [l] => l
  | l :: ls => l ++ '\n' :: joinLines ls

/-- The lines with texts added: `pads` gives, line by line, what is put before the line
and what is put after it. -/
def padLines (pads : List (Str × Str)) (lines : List Str) : List Str :=
  List.zipWith (fun p l => p.1 ++ l ++ p.2) pads lines

/-- The line `l₁` is the line `l` with white space added at its start or at its end. -/
def padded (l l₁ : Str) : Prop :=
  ∃ a b, (∀ x ∈ a, isSpace x = true) ∧ (∀ x ∈ b, isSpace x = true) ∧ l₁ = a ++ l ++ b

/-! ## Lemmas on the library routines -/

theorem splitLines_ne_nil (s : Str) : splitLines s ≠ [] := by
  induction s with
  | nil => simp [splitLines]
  | cons c cs ih =>
    unfold splitLines
    split
    · simp
    · split <;> simp

theorem splitLines_append_newline (a b : Str) :
    splitLines (a ++ '\n' :: b) = splitLines a ++ splitLines b := by
  induction a with
  | nil => simp [splitLines]
  | cons c cs ih =>
    by_cases hc : c = '\n'
    · simp [splitLines, hc, ih]
    · have hne := splitLines_ne_nil cs
      cases hs : splitLines cs with
      | nil => exact absurd hs hne
      | cons l ls => simp [splitLines, hc, ih, hs]

theorem splitLines_of_no_newline (a : Str) (h : ∀ c ∈ a, c ≠ '\n') : splitLines a = [a] := by
  induction a with
  | nil => simp [splitLines]
  | cons c cs ih =>
    have hc : c ≠ '\n' := h c (by simp)
    have := ih (fun x hx => h x (by simp [hx]))
    simp [splitLines, hc, this]

theorem hasPrefix_iff (t p : Str) : hasPrefix t p = true ↔ p <+: t := by
  induction p generalizing t with
  | nil => simp [hasPrefix]
  | cons d p ih =>
    cases t with
    | nil => simp [hasPrefix]
    | cons c s =>
      simp only [hasPrefix, Bool.and_eq_true, beq_iff_eq, ih, List.cons_prefix_cons]
      constructor
      · rintro ⟨h1, h2⟩; exact ⟨h1.symm, h2⟩
      · rintro ⟨h1, h2⟩; exact ⟨h1.symm, h2⟩

theorem hasPrefix_append (p rest : Str) : hasPrefix (p ++ rest) p = true :=
  (hasPrefix_iff _ _).2 (List.prefix_append p rest)

theorem rdropWhile_append_of_all (p : Char → Bool) (s ws : Str) (h : ∀ c ∈ ws, p c = true) :
    (s ++ ws).rdropWhile p = s.rdropWhile p := by
  induction ws using List.reverseRecOn with
  | nil => simp
  | append_singleton ws a ih =>
    rw [← List.append_assoc, List.rdropWhile_concat_pos _ _ _ (h a (by simp))]
    exact ih (fun c hc => h c (by simp [hc]))

theorem rdropWhile_append_barrier (p : Char → Bool) (u v : Str) (x : Char) (hx : p x = false) :
    (u ++ x :: v).rdropWhile p = u ++ x :: v.rdropWhile p := by
  induction v using List.reverseRecOn with
  | nil =>
    have : u ++ [x] = u ++ [x] := rfl
    simp only [List.rdropWhile_nil]
    exact List.rdropWhile_concat_neg _ _ _ (by simp [hx])
  | append_singleton v a ih =>
    have e : u ++ x :: (v ++ [a]) = (u ++ x :: v) ++ [a] := by simp
    rw [e]
    by_cases ha : p a = true
    · rw [List.rdropWhile_concat_pos _ _ _ ha, List.rdropWhile_concat_pos _ _ _ ha, ih]
    · rw [List.rdropWhile_concat_neg _ _ _ ha, List.rdropWhile_concat_neg _ _ _ ha]
      simp

/-- Trimming a line that is white space, a text that starts with a character that is
not white space, and a tail. -/
theorem trimSpace_ws_append (ws u v : Str) (x y : Char) (hws : ∀ c ∈ ws, isSpace c = true)
    (hx : isSpace x = false) (hy : isSpace y = false) :
    trimSpace (ws ++ x :: (u ++ y :: v)) = x :: (u ++ y :: v.rdropWhile isSpace) := by
  unfold trimSpace
  rw [List.dropWhile_append_of_pos hws, List.dropWhile_cons_of_neg (by simp [hx])]
  have := rdropWhile_append_barrier isSpace (x :: u) v y hy
  simpa using this

theorem fieldsFrom_append_word (cur w rest : Str) (hw : ∀ c ∈ w, isSpace c = false) :
    fieldsFrom cur (w ++ rest) = fieldsFrom (cur ++ w) rest := by
  induction w generalizing cur with
  | nil => simp
  | cons c w ih =>
    have hc : isSpace c = false := hw c (by simp)
    rw [List.cons_append, fieldsFrom]
    simp only [hc, Bool.false_eq_true, if_false]
    rw [ih _ (fun x hx => hw x (by simp [hx]))]
    simp

theorem fields_word_space (w rest : Str) (sp : Char) (hne : w ≠ [])
    (hw : ∀ c ∈ w, isSpace c = false) (hsp : isSpace sp = true) :
    fields (w ++ sp :: rest) = w :: fields rest := by
  unfold fields
  rw [fieldsFrom_append_word _ _ _ hw]
  cases w with
  | nil => exact absurd rfl hne
  | cons a w => simp [fieldsFrom, hsp]

theorem fields_word_end (w : Str) (hne : w ≠ [])
    (hw : ∀ c ∈ w, isSpace c = false) :
    fields w = [w] := by
  unfold fields
  have := fieldsFrom_append_word [] w [] hw
  simp only [List.append_nil, List.nil_append] at this
  rw [this]
  cases w with
  | nil => exact absurd rfl hne
  | cons a w => simp [fieldsFrom]

/-- The second field of a trimmed declaration line is the name. -/
theorem fields_const_line (k rest : Str) (hk : isToken k) :
    (fields ("const ".toList ++ k ++ ' ' :: rest)).get? 1 = some k := by
  have e : "const ".toList ++ k ++ ' ' :: rest = "const".toList ++ ' ' :: (k ++ ' ' :: rest) := by
    simp
  rw [e, fields_word_space _ _ _ (by decide) (by decide) (by decide),
    fields_word_space _ _ _ hk.1 hk.2 (by decide)]
  rfl

theorem keyExistsLines_iff (k : Str) (lines : List Str) :
    keyExistsLines k lines = true ↔
      ∃ l ∈ lines, hasPrefix (trimSpace l) "const ".toList = true
        ∧ (fields (trimSpace l)).get? 1 = some k := by
  induction lines with
  | nil => simp [keyExistsLines]
  | cons ln rest ih =>
    simp only [keyExistsLines, List.mem_cons, exists_eq_or_imp]
    by_cases hp : hasPrefix (trimSpace ln) "const ".toList = true
    · by_cases hf : (fields (trimSpace ln)).get? 1 = some k
      · have hlen : 2 ≤ (fields (trimSpace ln)).length := by
          rcases List.get?_eq_some.1 hf with ⟨h, _⟩
          omega
        simp only [hp, hf, hlen, Bool.not_true, Bool.false_eq_true, if_false, ge_iff_le,
          decide_True, beq_self_eq_true, Bool.and_self, if_true, true_and, true_or]
      · simp only [hp, hf, ih, Bool.not_true, Bool.false_eq_true, if_false, beq_iff_eq,
          Bool.and_eq_true, and_false, false_or, true_and]
    · simp only [hp, ih, false_and, false_or]
      simp only [Bool.not_eq_true] at hp
      simp only [hp, Bool.not_false, if_true, ih, Bool.false_eq_true, false_and, false_or]

theorem keyExistsLines_append (k : Str) (a b : List Str) :
    keyExistsLines k (a ++ b) = (keyExistsLines k a || keyExistsLines k b) := by
  rw [Bool.eq_iff_iff]
  simp only [Bool.or_eq_true, keyExistsLines_iff, List.mem_append]
  constructor
  · rintro ⟨l, hl | hl, h⟩
    · exact Or.inl ⟨l, hl, h⟩
    · exact Or.inr ⟨l, hl, h⟩
  · rintro (⟨l, hl, h⟩ | ⟨l, hl, h⟩)
    · exact ⟨l, Or.inl hl, h⟩
    · exact ⟨l, Or.inr hl, h⟩

theorem looksLikeKeysPackageLines_iff (lines : List Str) :
    looksLikeKeysPackageLines lines = true ↔
      ∃ pre l post, lines = pre ++ l :: post
        ∧ (∀ x ∈ pre, hasPrefix (trimSpace x) "package ".toList = false)
        ∧ trimSpace l = "package keys".toList := by
  induction lines with
  | nil => simp [looksLikeKeysPackageLines]
  | cons ln rest ih =>
    simp only [looksLikeKeysPackageLines]
    by_cases hp : hasPrefix (trimSpace ln) "package ".toList = true
    · simp only [hp, if_true, beq_iff_eq]
      constructor
      · intro h
        exact ⟨[], ln, rest, rfl, by simp, h⟩
      · rintro ⟨pre, l, post, he, hpre, hl⟩
        cases pre with
        | nil =>
          simp only [List.nil_append, List.cons.injEq] at he
          rw [he.1]; exact hl
        | cons x pre =>
          simp only [List.cons_append, List.cons.injEq] at he
          have := hpre x (by simp)
          rw [← he.1, hp] at this
          exact absurd this (by simp)
    · simp only [hp, Bool.false_eq_true, if_false, ih]
      have hp' : hasPrefix (trimSpace ln) "package ".toList = false := by simpa using hp
      constructor
      · rintro ⟨pre, l, post, he, hpre, hl⟩
        refine ⟨ln :: pre, l, post, by simp [he], ?_, hl⟩
        intro x hx
        rcases List.mem_cons.1 hx with rfl | hx
        · exact hp'
        · exact hpre x hx
      · rintro ⟨pre, l, post, he, hpre, hl⟩
        cases pre with
        | nil =>
          simp only [List.nil_append, List.cons.injEq] at he
          rw [he.1, hl] at hp
          exact absurd (by decide) hp
        | cons x pre =>
          simp only [List.cons_append, List.cons.injEq] at he
          exact ⟨pre, l, post, he.2, fun y hy => hpre y (by simp [hy]), hl⟩

theorem looksLikeKeysPackageLines_append (a b : List Str)
    (h : looksLikeKeysPackageLines a = true) : looksLikeKeysPackageLines (a ++ b) = true := by
  rcases (looksLikeKeysPackageLines_iff a).1 h with ⟨pre, l, post, he, hpre, hl⟩
  exact (looksLikeKeysPackageLines_iff _).2 ⟨pre, l, post ++ b, by simp [he], hpre, hl⟩

theorem isAlnum_of_mem_alphabet : ∀ c ∈ alphabet, isAlnum c = true := by decide

theorem escapeRune_of_isAlnum (tbl : Char → Bool) (c : Char) (h : isAlnum c = true) :
    escapeRune tbl c = [c] := by
  have h1 : c ≠ '"' := by rintro rfl; revert h; decide
  have h2 : c ≠ '\\' := by rintro rfl; revert h; decide
  have hb : 0x20 ≤ c.toNat ∧ c.toNat ≤ 0x7E := by
    have ha : 'a'.toNat = 97 := rfl
    have hz : 'z'.toNat = 122 := rfl
    have hA : 'A'.toNat = 65 := rfl
    have hZ : 'Z'.toNat = 90 := rfl
    have h0 : '0'.toNat = 48 := rfl
    have h9 : '9'.toNat = 57 := rfl
    simp only [isAlnum, ha, hz, hA, hZ, h0, h9, Bool.or_eq_true, Bool.and_eq_true,
      decide_eq_true_eq] at h
    omega
  have hp : isPrint tbl c = true := by
    unfold isPrint
    have : c.toNat ≤ 0xFF := by omega
    simp [this, hb.1, hb.2]
  simp [escapeRune, h1, h2, hp]

theorem quote_of_isAlnum (tbl : Char → Bool) (v : Str) (h : ∀ c ∈ v, isAlnum c = true) :
    quote tbl v = '"' :: (v ++ ['"']) := by
  have : v.flatMap (escapeRune tbl) = v := by
    induction v with
    | nil => rfl
    | cons c v ih =>
      rw [List.flatMap_cons, escapeRune_of_isAlnum tbl c (h c (by simp)),
        ih (fun x hx => h x (by simp [hx]))]
      rfl
  rw [quote, this]

theorem hexDigit_ne_newline (r s : Nat) : hexDigit r s ≠ '\n' := by
  unfold hexDigit
  have hlt : r / 2 ^ s % 16 < 16 := Nat.mod_lt _ (by decide)
  generalize r / 2 ^ s % 16 = i at hlt
  interval_cases i <;> decide

theorem isPrint_newline (tbl : Char → Bool) : isPrint tbl '\n' = false := by
  rfl

theorem newline_ne_hexDigit (r s : Nat) : '\n' ≠ hexDigit r s :=
  fun h => hexDigit_ne_newline r s h.symm

theorem escapeRune_no_newline (tbl : Char → Bool) (r : Char) :
    ∀ ch ∈ escapeRune tbl r, ch ≠ '\n' := by
  intro ch hch hEq
  subst hEq
  unfold escapeRune at hch
  by_cases h1 : r = '"' ∨ r = '\\'
  · rw [if_pos h1] at hch
    rcases h1 with rfl | rfl <;> simp at hch
  · rw [if_neg h1] at hch
    by_cases h2 : isPrint tbl r = true
    · rw [if_pos h2] at hch
      simp only [List.mem_singleton] at hch
      rw [← hch, isPrint_newline] at h2
      exact absurd h2 (by simp)
    · rw [if_neg h2] at hch
      simp only [] at hch
      split_ifs at hch <;> simp [newline_ne_hexDigit] at hch

theorem quote_no_newline (tbl : Char → Bool) (v : Str) : ∀ ch ∈ quote tbl v, ch ≠ '\n' := by
  intro ch hch
  unfold quote at hch
  simp only [List.mem_cons, List.mem_append, List.mem_flatMap, List.mem_singleton,
    List.not_mem_nil, or_false] at hch
  rcases hch with rfl | ⟨r, _, hr⟩ | rfl
  · decide
  · exact escapeRune_no_newline tbl r ch hr
  · decide

/-! ## Lemmas on the merger -/

theorem mem_of_mem_splitLines (s : Str) : ∀ l ∈ splitLines s, ∀ x ∈ l, x ∈ s := by
  induction s with
  | nil => simp [splitLines]
  | cons c cs ih =>
    intro l hl x hx
    by_cases hc : c = '\n'
    · simp only [splitLines, hc, if_true, List.mem_cons] at hl
      rcases hl with rfl | hl
      · simp at hx
      · exact List.mem_cons_of_mem _ (ih l hl x hx)
    · cases hs : splitLines cs with
      | nil => exact absurd hs (splitLines_ne_nil cs)
      | cons l0 ls =>
        simp only [splitLines, hc, if_false, hs, List.mem_cons] at hl
        rcases hl with rfl | hl
        · rcases List.mem_cons.1 hx with rfl | hx
          · simp
          · exact List.mem_cons_of_mem _ (ih l0 (by simp [hs]) x hx)
        · exact List.mem_cons_of_mem _ (ih l (by simp [hs, hl]) x hx)

theorem trimSpace_eq_nil_iff (s : Str) : trimSpace s = [] ↔ ∀ x ∈ s, isSpace x = true := by
  unfold trimSpace
  rw [List.rdropWhile_eq_nil_iff]
  constructor
  · intro h
    have hnil : s.dropWhile isSpace = [] := by
      cases hd : s.dropWhile isSpace with
      | nil => rfl
      | cons a t =>
        have h0 : 0 < (s.dropWhile isSpace).length := by simp [hd]
        have hnot := List.dropWhile_get_zero_not isSpace s h0
        have ha : isSpace a = true := h a (by simp [hd])
        simp [hd] at hnot
        rw [ha] at hnot
        exact absurd hnot (by simp)
    exact List.dropWhile_eq_nil_iff.1 hnil
  · intro h x hx
    exact h x ((List.dropWhile_sublist isSpace).subset hx)

theorem trimSpace_ne_nil_of_looksLike (c : Str) (h : looksLikeKeysPackage c = true) :
    trimSpace c ≠ [] := by
  intro hnil
  rw [trimSpace_eq_nil_iff] at hnil
  rcases (looksLikeKeysPackageLines_iff _).1 h with ⟨pre, l, post, he, _, hl⟩
  have hmem : l ∈ splitLines c := by rw [he]; simp
  have : trimSpace l = [] :=
    (trimSpace_eq_nil_iff l).2 (fun x hx => hnil x (mem_of_mem_splitLines c l hmem x hx))
  rw [this] at hl
  exact absurd hl (by decide)

theorem ne_nil_of_looksLike (c : Str) (h : looksLikeKeysPackage c = true) : c ≠ [] := by
  rintro rfl
  exact absurd h (by decide)

/-- The append branch, when no `os` call fails. -/
theorem writeOrAppendKey_existing (tbl : Char → Bool) (outPath c k v : Str)
    (h1 : looksLikeKeysPackage c = true) (h2 : keyExists c k = false) :
    writeOrAppendKey tbl none (some c) outPath k v =
      (some (c ++ (if c.getLast? = some '\n' then [] else ['\n'])
        ++ (if trimSpace c = [] then [] else ['\n']) ++ declLine tbl k v), none) := by
  have hne := ne_nil_of_looksLike c h1
  have hlen : 0 < c.length := List.length_pos.2 hne
  unfold writeOrAppendKey
  have ht := trimSpace_ne_nil_of_looksLike c h1
  have htl := List.length_pos.2 ht
  by_cases hl : c.getLast? = some '\n' <;>
    simp [h1, h2, hl, ht, hlen, hne, htl]

/-- The content after a successful append holds the old lines, then the new line. -/
theorem splitLines_appended (tbl : Char → Bool) (c k v : Str)
    (h1 : looksLikeKeysPackage c = true) (hk : ∀ x ∈ k, x ≠ '\n') :
    ∃ mid, splitLines (c ++ (if c.getLast? = some '\n' then [] else ['\n'])
        ++ (if trimSpace c = [] then [] else ['\n']) ++ declLine tbl k v)
      = splitLines c ++ mid
        ++ ["const ".toList ++ k ++ " = ".toList ++ quote tbl v, []] := by
  have ht := trimSpace_ne_nil_of_looksLike c h1
  have hdl : splitLines (declLine tbl k v)
      = ["const ".toList ++ k ++ " = ".toList ++ quote tbl v, []] := by
    have e : declLine tbl k v
        = ("const ".toList ++ k ++ " = ".toList ++ quote tbl v) ++ '\n' :: [] := by
      simp [declLine]
    rw [e, splitLines_append_newline, splitLines_of_no_newline]
    · rfl
    · intro x hx
      simp only [List.mem_append] at hx
      rcases hx with ((hx | hx) | hx) | hx
      · intro h; subst h; revert hx; decide
      · exact hk x hx
      · intro h; subst h; revert hx; decide
      · exact quote_no_newline tbl v x hx
  rw [if_neg ht]
  by_cases hl : c.getLast? = some '\n'
  · refine ⟨[], ?_⟩
    rw [if_pos hl]
    have e : c ++ [] ++ ['\n'] ++ declLine tbl k v = c ++ '\n' :: declLine tbl k v := by simp
    rw [e, splitLines_append_newline, hdl]
    simp
  · refine ⟨[[]], ?_⟩
    rw [if_neg hl]
    have e : c ++ ['\n'] ++ ['\n'] ++ declLine tbl k v
        = c ++ '\n' :: ([] ++ '\n' :: declLine tbl k v) := by simp
    rw [e, splitLines_append_newline, splitLines_append_newline, hdl]
    simp [splitLines]

theorem no_newline_of_isToken (k : Str) (hk : isToken k) : ∀ x ∈ k, x ≠ '\n' := by
  intro x hx h
  subst h
  have := hk.2 _ hx
  exact absurd this (by decide)

theorem declaration_second_field (k : Str) (hk : isToken k) (ws tail : Str)
    (hws : ∀ x ∈ ws, isSpace x = true) :
    hasPrefix (trimSpace (ws ++ "const ".toList ++ k ++ " =".toList ++ tail)) "const ".toList
        = true
      ∧ (fields (trimSpace (ws ++ "const ".toList ++ k ++ " =".toList ++ tail))).get? 1
        = some k := by
  have e : ws ++ "const ".toList ++ k ++ " =".toList ++ tail
      = ws ++ 'c' :: ("onst ".toList ++ k ++ [' '] ++ '=' :: tail) := by simp
  have ht := trimSpace_ws_append ws ("onst ".toList ++ k ++ [' ']) tail 'c' '=' hws
    (by decide) (by decide)
  rw [e, ht]
  have e2 : 'c' :: ("onst ".toList ++ k ++ [' '] ++ '=' :: tail.rdropWhile isSpace)
      = "const ".toList ++ k ++ ' ' :: ('=' :: tail.rdropWhile isSpace) := by simp
  rw [e2]
  refine ⟨?_, fields_const_line k _ hk⟩
  have e3 : "const ".toList ++ k ++ ' ' :: ('=' :: tail.rdropWhile isSpace)
      = "const ".toList ++ (k ++ ' ' :: ('=' :: tail.rdropWhile isSpace)) := by simp
  rw [e3]
  exact hasPrefix_append _ _

/-- A line `const K = ...` counts as a declaration of `K` for `keyExists`. -/
theorem keyExistsLines_of_decl (k : Str) (hk : isToken k) (lines : List Str) (ws tail : Str)
    (hws : ∀ x ∈ ws, isSpace x = true)
    (hmem : ws ++ "const ".toList ++ k ++ " =".toList ++ tail ∈ lines) :
    keyExistsLines k lines = true :=
  (keyExistsLines_iff k lines).2 ⟨_, hmem, declaration_second_field k hk ws tail hws⟩

/-! ## Lemmas on the generator -/

/-- The index `b%alphabetLen` is within `alphabet`. -/
theorem index_lt_length (b : Nat) : b % alphabetLen < alphabet.length :=
  Nat.mod_lt b (by decide)

theorem fillFrom_length (n : Nat) (buf : List Nat) (out : Str) (h : out.length < n) :
    (fillFrom n buf out).length
      = min n (out.length + buf.countP (fun b => decide (b < maxMultiple))) := by
  induction buf generalizing out with
  | nil => simp [fillFrom]; omega
  | cons b buf ih =>
    by_cases hb : b ≥ maxMultiple
    · have hnot : ¬ b < maxMultiple := by omega
      rw [fillFrom, if_pos hb, ih out h, List.countP_cons_of_neg _ _ (by simpa using hnot)]
    · have hlt : b < maxMultiple := by omega
      rw [fillFrom, if_neg hb, List.countP_cons_of_pos _ _ (by simpa using hlt)]
      by_cases hfull : (out ++ [alphabet.get ⟨b % alphabetLen, index_lt_length b⟩]).length = n
      · simp only [hfull, if_true]
        simp only [List.length_append, List.length_singleton] at hfull
        omega
      · simp only [hfull, if_false]
        have hlen : (out ++ [alphabet.get ⟨b % alphabetLen, index_lt_length b⟩]).length
            = out.length + 1 := by simp
        rw [ih _ (by omega), hlen]
        omega

theorem fillFrom_mem (n : Nat) (buf : List Nat) (out : Str) (h : ∀ c ∈ out, c ∈ alphabet) :
    ∀ c ∈ fillFrom n buf out, c ∈ alphabet := by
  induction buf generalizing out with
  | nil => simpa [fillFrom] using h
  | cons b buf ih =>
    have hnext : ∀ c ∈ out ++ [alphabet.get ⟨b % alphabetLen, index_lt_length b⟩],
        c ∈ alphabet := by
      intro c hc
      rcases List.mem_append.1 hc with hc | hc
      · exact h c hc
      · rw [List.mem_singleton.1 hc]
        exact List.get_mem _ _ _
    rw [fillFrom]
    by_cases hb : b ≥ maxMultiple
    · rw [if_pos hb]
      exact ih out h
    · rw [if_neg hb]
      by_cases hfull : (out ++ [alphabet.get ⟨b % alphabetLen, index_lt_length b⟩]).length = n
      · simp only [hfull, if_true]
        exact hnext
      · simp only [hfull, if_false]
        exact ih _ hnext

theorem batch_of_ok (src : Source) (len i : Nat) (f : Nat → Nat) (h : src i = .ok f) :
    batch src len i = readBuf f len := by
  simp [batch, h]

/-- With a source that never fails and supplies enough bytes below the limit within `k`
more reads, the loop ends with a string of `n` characters whatever fuel above `k` it has. -/
theorem randLoop_terminates (src : Source) (n : Nat) (hok : ∀ i, ∃ f, src i = .ok f) :
    ∀ k reads (out : Str), out.length ≤ n →
      n ≤ out.length + acceptedFrom src (n * 2) reads k →
      ∃ s r, s.length = n ∧
        ∀ fuel, k < fuel → randLoop src n fuel reads out = some (s, none, r) := by
  intro k
  induction k with
  | zero =>
    intro reads out h1 h2
    simp only [acceptedFrom] at h2
    refine ⟨out, reads, by omega, ?_⟩
    intro fuel hf
    obtain ⟨g, rfl⟩ : ∃ g, fuel = g + 1 := ⟨fuel - 1, by omega⟩
    rw [randLoop, if_neg (by omega)]
  | succ k ih =>
    intro reads out h1 h2
    by_cases hlt : out.length < n
    · obtain ⟨f, hf⟩ := hok reads
      have hlen := fillFrom_length n (readBuf f (n * 2)) out hlt
      rw [acceptedFrom, batch_of_ok src _ reads f hf] at h2
      obtain ⟨s, r, hs, hrun⟩ := ih (reads + 1) (fillFrom n (readBuf f (n * 2)) out)
        (by omega) (by omega)
      refine ⟨s, r, hs, ?_⟩
      intro fuel hfuel
      obtain ⟨g, rfl⟩ : ∃ g, fuel = g + 1 := ⟨fuel - 1, by omega⟩
      rw [randLoop, if_pos hlt, hf]
      exact hrun g (by omega)
    · refine ⟨out, reads, by omega, ?_⟩
      intro fuel hf
      obtain ⟨g, rfl⟩ : ∃ g, fuel = g + 1 := ⟨fuel - 1, by omega⟩
      rw [randLoop, if_neg hlt]

theorem randLoop_mem (src : Source) (n : Nat) :
    ∀ fuel reads (out : Str) s e r, (∀ c ∈ out, c ∈ alphabet) →
      randLoop src n fuel reads out = some (s, e, r) → ∀ c ∈ s, c ∈ alphabet := by
  intro fuel
  induction fuel with
  | zero => intro reads out s e r _ h; simp [randLoop] at h
  | succ fuel ih =>
    intro reads out s e r hout h
    rw [randLoop] at h
    by_cases hlt : out.length < n
    · rw [if_pos hlt] at h
      cases hsrc : src reads with
      | error err =>
        rw [hsrc] at h
        simp only [Option.some.injEq, Prod.mk.injEq] at h
        rw [← h.1]
        simp
      | ok f =>
        rw [hsrc] at h
        exact ih _ _ s e r (fillFrom_mem n _ out hout) h
    · rw [if_neg hlt] at h
      simp only [Option.some.injEq, Prod.mk.injEq] at h
      rw [← h.1]
      exact hout

/-- When the read number `reads + k` fails and the reads before it have not supplied
`n` bytes below the limit, the loop returns that error and the empty string. -/
theorem randLoop_fails (src : Source) (n : Nat) (e : Error) :
    ∀ k reads (out : Str),
      (∀ i, reads ≤ i → i < reads + k → ∃ f, src i = .ok f) →
      src (reads + k) = .error e →
      out.length + acceptedFrom src (n * 2) reads k < n →
      ∀ fuel, k < fuel → randLoop src n fuel reads out = some ([], some e, reads + k + 1) := by
  intro k
  induction k with
  | zero =>
    intro reads out _ herr hacc fuel hf
    simp only [acceptedFrom] at hacc
    obtain ⟨g, rfl⟩ : ∃ g, fuel = g + 1 := ⟨fuel - 1, by omega⟩
    rw [Nat.add_zero] at herr
    rw [randLoop, if_pos (by omega), herr]
  | succ k ih =>
    intro reads out hok herr hacc fuel hf
    obtain ⟨g, rfl⟩ : ∃ g, fuel = g + 1 := ⟨fuel - 1, by omega⟩
    obtain ⟨f, hsrc⟩ := hok reads (le_refl _) (by omega)
    rw [acceptedFrom, batch_of_ok src _ reads f hsrc] at hacc
    have hlt : out.length < n := by omega
    have hlen := fillFrom_length n (readBuf f (n * 2)) out hlt
    rw [randLoop, if_pos hlt, hsrc]
    have := ih (reads + 1) (fillFrom n (readBuf f (n * 2)) out)
      (fun i h1 h2 => hok i (by omega) (by omega))
      (by rw [show reads + 1 + k = reads + (k + 1) by omega]; exact herr)
      (by omega) g (by omega)
    simp only [this, show reads + 1 + k + 1 = reads + (k + 1) + 1 by omega]

theorem randLoop_error_inv (src : Source) (n : Nat) :
    ∀ fuel reads (out : Str) s e r, out.length ≤ n →
      randLoop src n fuel reads out = some (s, some e, r) →
      s = [] ∧ ∃ k, r = reads + k + 1 ∧ src (reads + k) = .error e
        ∧ (∀ i, reads ≤ i → i < reads + k → ∃ f, src i = .ok f)
        ∧ out.length + acceptedFrom src (n * 2) reads k < n := by
  intro fuel
  induction fuel with
  | zero => intro reads out s e r _ h; simp [randLoop] at h
  | succ fuel ih =>
    intro reads out s e r hle h
    rw [randLoop] at h
    by_cases hlt : out.length < n
    · rw [if_pos hlt] at h
      cases hsrc : src reads with
      | error err =>
        rw [hsrc] at h
        simp only [Option.some.injEq, Prod.mk.injEq] at h
        obtain ⟨h1, h2, h3⟩ := h
        refine ⟨h1.symm, 0, by omega, ?_, ?_, ?_⟩
        · rw [Nat.add_zero, hsrc, h2]
        · intro i h1 h2; omega
        · simpa [acceptedFrom] using hlt
      | ok f =>
        rw [hsrc] at h
        have hlen := fillFrom_length n (readBuf f (n * 2)) out hlt
        obtain ⟨hs, k, hr, herr, hok, hacc⟩ := ih _ _ s e r (by omega) h
        refine ⟨hs, k + 1, by omega, ?_, ?_, ?_⟩
        · rw [show reads + (k + 1) = reads + 1 + k by omega]; exact herr
        · intro i h1 h2
          by_cases hi : i = reads
          · exact ⟨f, by rw [hi, hsrc]⟩
          · exact hok i (by omega) (by omega)
        · rw [acceptedFrom, batch_of_ok src _ reads f hsrc]
          omega
    · rw [if_neg hlt] at h
      simp at h

theorem looksLikeKeysPackageLines_of_no_prefix (lines : List Str)
    (h : ∀ l ∈ lines, hasPrefix (trimSpace l) "package ".toList = false) :
    looksLikeKeysPackageLines lines = false := by
  induction lines with
  | nil => rfl
  | cons ln rest ih =>
    rw [looksLikeKeysPackageLines]
    simp only [h ln (by simp), Bool.false_eq_true, if_false]
    exact ih (fun l hl => h l (by simp [hl]))

theorem looksLikeKeysPackageLines_first (pre post : List Str) (l : Str)
    (hpre : ∀ x ∈ pre, hasPrefix (trimSpace x) "package ".toList = false)
    (hl : hasPrefix (trimSpace l) "package ".toList = true) :
    looksLikeKeysPackageLines (pre ++ l :: post) = (trimSpace l == "package keys".toList) := by
  induction pre with
  | nil =>
    rw [List.nil_append, looksLikeKeysPackageLines]
    simp only [hl, if_true]
  | cons x pre ih =>
    rw [List.cons_append, looksLikeKeysPackageLines]
    simp only [hpre x (by simp), Bool.false_eq_true, if_false]
    exact ih (fun y hy => hpre y (by simp [hy]))

theorem declLine_of_alphabet (tbl : Char → Bool) (k v : Str) (hv : ∀ c ∈ v, c ∈ alphabet) :
    declLine tbl k v = "const ".toList ++ k ++ " = \"".toList ++ v ++ "\"\n".toList := by
  have hq := quote_of_isAlnum tbl v (fun c hc => isAlnum_of_mem_alphabet c (hv c hc))
  simp [declLine, hq]

/-! ## The merger: creation, rejection, append -/

/-- C1 (bootstrap). For every name `k` and every value `v` made of characters of the
alphabet, `writeOrAppendKey` on a path with no file succeeds and leaves the file
`package keys`, a blank line, `const k = "v"` and a final newline, nothing else. -/
theorem bootstrap_creates_exact_file (tbl : Char → Bool) (outPath k v : Str)
    (hv : ∀ c ∈ v, c ∈ alphabet) :
    writeOrAppendKey tbl none none outPath k v
      = (some ("package keys\n\nconst ".toList ++ k ++ " = \"".toList ++ v ++ "\"\n".toList),
          none) := by
  have hq := quote_of_isAlnum tbl v (fun c hc => isAlnum_of_mem_alphabet c (hv c hc))
  simp [writeOrAppendKey, declLine, hq]

theorem bootstrap_creates_exact_file_witness :
    (∀ c ∈ "aB3".toList, c ∈ alphabet)
      ∧ writeOrAppendKey noTable none none "keys/keys.go".toList "ApiKey".toList "aB3".toList
        = (some "package keys\n\nconst ApiKey = \"aB3\"\n".toList, none) :=
  ⟨by decide, bootstrap_creates_exact_file noTable _ _ _ (by decide)⟩

/-- C2, as stated, fails for a name that is not a single token: the file holds the line
`const A B = "x"` and passes the identity check, yet merging the name `A B` is not
rejected; the declaration is appended and no error is returned. -/
theorem untokenized_name_is_appended :
    looksLikeKeysPackage "package keys\n\nconst A B = \"x\"\n".toList = true
      ∧ "const ".toList ++ "A B".toList ++ " = \"".toList ++ "x".toList ++ "\"".toList
          ∈ splitLines "package keys\n\nconst A B = \"x\"\n".toList
      ∧ writeOrAppendKey noTable none (some "package keys\n\nconst A B = \"x\"\n".toList)
          "keys.go".toList "A B".toList "v".toList
        = (some "package keys\n\nconst A B = \"x\"\n\nconst A B = \"v\"\n".toList, none) := by
  decide

/-- C2 (duplicate rejection), for a name that is a token. For every content `c` that passes
the identity check and has a line `const k = "value"`, with white space around it or not,
and for every value `v`, `writeOrAppendKey` returns the duplicate-name error and leaves
the file equal to `c`. -/
theorem duplicate_rejection (tbl : Char → Bool) (outPath c k v : Str)
    (hpkg : looksLikeKeysPackage c = true) (hk : isToken k)
    (hline : ∃ ws₁ value ws₂, (∀ x ∈ ws₁, isSpace x = true) ∧ (∀ x ∈ ws₂, isSpace x = true)
      ∧ ws₁ ++ "const ".toList ++ k ++ " = \"".toList ++ value ++ "\"".toList ++ ws₂
          ∈ splitLines c) :
    writeOrAppendKey tbl none (some c) outPath k v
      = (some c, some (.keyAlreadyExists k outPath)) := by
  rcases hline with ⟨ws₁, value, ws₂, h₁, _, hmem⟩
  have hex : keyExists c k = true := by
    unfold keyExists
    rw [keyExistsLines_iff]
    refine ⟨_, hmem, ?_⟩
    have e : ws₁ ++ "const ".toList ++ k ++ " = \"".toList ++ value ++ "\"".toList ++ ws₂
        = ws₁ ++ "const ".toList ++ k ++ " =".toList
          ++ (" \"".toList ++ value ++ "\"".toList ++ ws₂) := by simp
    rw [e]
    exact declaration_second_field k hk ws₁ _ h₁
  simp [writeOrAppendKey, hpkg, hex]

theorem duplicate_rejection_witness :
    writeOrAppendKey noTable none (some "package keys\n\n\tconst ApiKey = \"aB3\" \n".toList)
        "keys.go".toList "ApiKey".toList "zzz".toList
      = (some "package keys\n\n\tconst ApiKey = \"aB3\" \n".toList,
          some (.keyAlreadyExists "ApiKey".toList "keys.go".toList)) :=
  duplicate_rejection noTable _ _ _ _ (by decide) (by decide)
    ⟨"\t".toList, "aB3".toList, " ".toList, by decide, by decide, by decide⟩

/-- C3 (identity rejection). For every content `c` in which no trimmed line begins with
`package `, or in which the first such trimmed line is not `package keys`, and for every
name and value, `writeOrAppendKey` returns the wrong-package error (whether or not the
name is declared in `c`) and leaves the file equal to `c`. -/
theorem identity_rejection (tbl : Char → Bool) (outPath c k v : Str)
    (h : (∀ l ∈ splitLines c, hasPrefix (trimSpace l) "package ".toList = false)
      ∨ ∃ pre l post, splitLines c = pre ++ l :: post
          ∧ (∀ x ∈ pre, hasPrefix (trimSpace x) "package ".toList = false)
          ∧ hasPrefix (trimSpace l) "package ".toList = true
          ∧ trimSpace l ≠ "package keys".toList) :
    writeOrAppendKey tbl none (some c) outPath k v = (some c, some .notKeysPackage) := by
  have hno : looksLikeKeysPackage c = false := by
    unfold looksLikeKeysPackage
    rcases h with h | ⟨pre, l, post, he, hpre, hl, hne⟩
    · exact looksLikeKeysPackageLines_of_no_prefix _ h
    · rw [he, looksLikeKeysPackageLines_first pre post l hpre hl]
      simpa using hne
  simp [writeOrAppendKey, hno]

theorem identity_rejection_witness :
    writeOrAppendKey noTable none (some "// keys\npackage main\n\nconst ApiKey = \"aB3\"\n".toList)
        "keys.go".toList "ApiKey".toList "zzz".toList
      = (some "// keys\npackage main\n\nconst ApiKey = \"aB3\"\n".toList,
          some .notKeysPackage) :=
  identity_rejection noTable _ _ _ _
    (Or.inr ⟨["// keys".toList], "package main".toList,
      ["".toList, "const ApiKey = \"aB3\"".toList, "".toList],
      by decide, by decide, by decide, by decide⟩)

/-- C4, as stated, fails for a valid file with a blank line after its declaration: the
file passes the identity check, holds the one declaration of `A` and does not declare `B`;
the call succeeds and writes the separator and the line only, so two blank lines stand
between the declaration of `A` and the line `const B = "V9"`. -/
theorem trailing_blank_line_is_kept :
    looksLikeKeysPackage "package keys\n\nconst A = \"VA\"\n\n".toList = true
      ∧ keyExists "package keys\n\nconst A = \"VA\"\n\n".toList "B".toList = false
      ∧ writeOrAppendKey noTable none (some "package keys\n\nconst A = \"VA\"\n\n".toList)
          "keys.go".toList "B".toList "V9".toList
        = (some "package keys\n\nconst A = \"VA\"\n\n\nconst B = \"V9\"\n".toList, none)
      ∧ splitLines "package keys\n\nconst A = \"VA\"\n\n\nconst B = \"V9\"\n".toList
        = ["package keys".toList, [], "const A = \"VA\"".toList, [], [],
            "const B = \"V9\"".toList, []] := by
  decide

/-- C4 (append correctness), for a file that ends with its declaration. The file holds a
head that passes the identity check and does not declare `b`, then the declaration line of
a name `a` with any literal, and ends there or with one newline. For every name `b` other
than `a` and every value `v` over the alphabet, `writeOrAppendKey` succeeds; the new
content is the old one up to the end of the declaration of `a`, one newline, one blank
line, and the line `const b = "v"`; the old content is a prefix of the new one. -/
theorem append_second_declaration (tbl : Char → Bool) (outPath head a lit e b v : Str)
    (hhead : looksLikeKeysPackage head = true) (hnone : keyExists head b = false)
    (ha : isToken a) (hlit : ∀ x ∈ lit, x ≠ '\n') (he : e = [] ∨ e = ['\n'])
    (hb : b ≠ a) (hv : ∀ c ∈ v, c ∈ alphabet) :
    writeOrAppendKey tbl none
        (some (head ++ "\nconst ".toList ++ a ++ " = ".toList ++ lit ++ e)) outPath b v
      = (some (head ++ "\nconst ".toList ++ a ++ " = ".toList ++ lit
          ++ "\n\nconst ".toList ++ b ++ " = \"".toList ++ v ++ "\"\n".toList), none)
    ∧ head ++ "\nconst ".toList ++ a ++ " = ".toList ++ lit ++ e
        <+: head ++ "\nconst ".toList ++ a ++ " = ".toList ++ lit
          ++ "\n\nconst ".toList ++ b ++ " = \"".toList ++ v ++ "\"\n".toList := by
  have hdecl : ∀ x ∈ "const ".toList ++ a ++ " = ".toList ++ lit, x ≠ '\n' := by
    intro x hx
    simp only [List.mem_append] at hx
    rcases hx with ((hx | hx) | hx) | hx
    · intro h; subst h; revert hx; decide
    · exact no_newline_of_isToken a ha x hx
    · intro h; subst h; revert hx; decide
    · exact hlit x hx
  have hsecond := declaration_second_field a ha [] (' ' :: lit) (by simp)
  have hform : [] ++ "const ".toList ++ a ++ " =".toList ++ ' ' :: lit
      = "const ".toList ++ a ++ " = ".toList ++ lit := by simp
  rw [hform] at hsecond
  have hblank : hasPrefix (trimSpace []) "const ".toList = false := by decide
  -- the lines of the old content
  have hlines : ∃ tl, splitLines (head ++ "\nconst ".toList ++ a ++ " = ".toList ++ lit ++ e)
      = splitLines head ++ ("const ".toList ++ a ++ " = ".toList ++ lit) :: tl
        ∧ ∀ l ∈ tl, l = [] := by
    rcases he with rfl | rfl
    · refine ⟨[], ?_, by simp⟩
      have e1 : head ++ "\nconst ".toList ++ a ++ " = ".toList ++ lit ++ []
          = head ++ '\n' :: ("const ".toList ++ a ++ " = ".toList ++ lit) := by simp
      rw [e1, splitLines_append_newline, splitLines_of_no_newline _ hdecl]
    · refine ⟨[[]], ?_, by simp⟩
      have e1 : head ++ "\nconst ".toList ++ a ++ " = ".toList ++ lit ++ ['\n']
          = head ++ '\n' :: (("const ".toList ++ a ++ " = ".toList ++ lit) ++ '\n' :: []) := by
        simp
      rw [e1, splitLines_append_newline, splitLines_append_newline,
        splitLines_of_no_newline _ hdecl]
      rfl
  rcases hlines with ⟨tl, hsplit, htl⟩
  have hpkg : looksLikeKeysPackage
      (head ++ "\nconst ".toList ++ a ++ " = ".toList ++ lit ++ e) = true := by
    unfold looksLikeKeysPackage
    rw [hsplit]
    exact looksLikeKeysPackageLines_append _ _ hhead
  have hnew : keyExists (head ++ "\nconst ".toList ++ a ++ " = ".toList ++ lit ++ e) b
      = false := by
    unfold keyExists
    rw [hsplit, keyExistsLines_append]
    have h1 : keyExistsLines b (splitLines head) = false := hnone
    have h2 : keyExistsLines b (("const ".toList ++ a ++ " = ".toList ++ lit) :: tl)
        = false := by
      rw [Bool.eq_false_iff]
      intro hex
      rcases (keyExistsLines_iff _ _).1 hex with ⟨l, hl, hp, hf⟩
      rcases List.mem_cons.1 hl with rfl | hl
      · rw [hsecond.2] at hf
        exact hb (Option.some.inj hf).symm
      · rw [htl l hl, hblank] at hp
        exact absurd hp (by simp)
    rw [h1, h2]
    rfl
  have hlast : (head ++ "\nconst ".toList ++ a ++ " = ".toList ++ lit ++ e).getLast?
      = some '\n' ↔ e = ['\n'] := by
    rcases he with rfl | rfl
    · have e1 : head ++ "\nconst ".toList ++ a ++ " = ".toList ++ lit ++ []
          = (head ++ "\nconst ".toList ++ a ++ " =".toList) ++ (' ' :: lit) := by simp
      rw [e1, List.getLast?_append_of_ne_nil _ (by simp)]
      constructor
      · intro h
        rcases List.getLast?_eq_some_iff.1 h with ⟨ys, hys⟩
        have hm : '\n' ∈ ' ' :: lit := by rw [hys]; simp
        rcases List.mem_cons.1 hm with h | h
        · exact absurd h (by decide)
        · exact absurd rfl (hlit _ h)
      · intro h; exact absurd h (by simp)
    · have e1 : head ++ "\nconst ".toList ++ a ++ " = ".toList ++ lit ++ ['\n']
          = (head ++ "\nconst ".toList ++ a ++ " = ".toList ++ lit) ++ ['\n'] := by simp
      rw [e1, List.getLast?_concat]
      simp
  rw [writeOrAppendKey_existing tbl outPath _ b v hpkg hnew,
    if_neg (trimSpace_ne_nil_of_looksLike _ hpkg), declLine_of_alphabet tbl b v hv]
  rcases he with rfl | rfl
  · rw [if_neg (by rw [hlast]; simp)]
    constructor
    · simp
    · simp
  · rw [if_pos (hlast.2 rfl)]
    constructor
    · simp
    · simp

theorem append_second_declaration_witness :
    writeOrAppendKey noTable none (some "package keys\n\nconst A = \"VA\"\n".toList)
        "keys.go".toList "B".toList "V9".toList
      = (some "package keys\n\nconst A = \"VA\"\n\nconst B = \"V9\"\n".toList, none)
    ∧ "package keys\n\nconst A = \"VA\"\n".toList
        <+: "package keys\n\nconst A = \"VA\"\n\nconst B = \"V9\"\n".toList :=
  append_second_declaration noTable "keys.go".toList "package keys\n".toList "A".toList
    "\"VA\"".toList "\n".toList "B".toList "V9".toList
    (by decide) (by decide) (by decide) (by decide) (by decide) (by decide) (by decide)

/-- C5, as stated, fails for a value that `%q` escapes: with the value `a"b` the line
written is `const K = "a\"b"`, not `const K = "a"b"`. -/
theorem escaped_value_changes_line :
    looksLikeKeysPackage "package keys\n".toList = true
      ∧ keyExists "package keys\n".toList "K".toList = false
      ∧ writeOrAppendKey noTable none (some "package keys\n".toList) "keys.go".toList
          "K".toList "a\"b".toList
        = (some "package keys\n\nconst K = \"a\\\"b\"\n".toList, none)
      ∧ "package keys\n\nconst K = \"a\\\"b\"\n".toList
        ≠ "package keys\n".toList ++ "".toList ++ "\n".toList
            ++ ("const ".toList ++ "K".toList ++ " = \"".toList ++ "a\"b".toList
              ++ "\"\n".toList) := by
  decide

/-- C5 (append formula and newline normalization), with the line as `fmt.Sprintf` writes
it. For every content `c` that passes the identity check and does not bind `k`,
`writeOrAppendKey` succeeds and the new content is `c ++ n ++ s ++ line`: `n` is a newline
when the last character of `c` is not one, `s` is a newline when `c` trimmed is not empty,
`line` is `const k = ` with the quoted value and a newline, which is `const k = "v"` and
a newline when `v` is over the alphabet. What precedes the line ends in a newline, so the
declaration starts a line of its own. -/
theorem append_formula (tbl : Char → Bool) (outPath c k v : Str)
    (hpkg : looksLikeKeysPackage c = true) (hnew : keyExists c k = false) :
    writeOrAppendKey tbl none (some c) outPath k v
        = (some (c ++ (if c.getLast? = some '\n' then [] else ['\n'])
            ++ (if trimSpace c = [] then [] else ['\n']) ++ declLine tbl k v), none)
      ∧ declLine tbl k v = "const ".toList ++ k ++ " = ".toList ++ quote tbl v ++ "\n".toList
      ∧ ((∀ x ∈ v, x ∈ alphabet) →
          declLine tbl k v = "const ".toList ++ k ++ " = \"".toList ++ v ++ "\"\n".toList)
      ∧ ∃ pre, c ++ (if c.getLast? = some '\n' then [] else ['\n'])
            ++ (if trimSpace c = [] then [] else ['\n']) = pre ++ ['\n'] := by
  refine ⟨writeOrAppendKey_existing tbl outPath c k v hpkg hnew, rfl,
    declLine_of_alphabet tbl k v, ?_⟩
  rw [if_neg (trimSpace_ne_nil_of_looksLike c hpkg)]
  exact ⟨_, rfl⟩

theorem append_formula_witness :
    writeOrAppendKey noTable none (some "package keys\nconst A = \"x\"".toList)
        "keys.go".toList "B".toList "a\"b".toList
      = (some "package keys\nconst A = \"x\"\n\nconst B = \"a\\\"b\"\n".toList, none) :=
  (append_formula noTable "keys.go".toList "package keys\nconst A = \"x\"".toList
    "B".toList "a\"b".toList (by decide) (by decide)).1

/-- C6 (no silent duplication). From every starting state, absent file or any content,
for every name `k` that is a token and all values `v₁`, `v₂`: when `writeOrAppendKey` with
`k` and `v₁` succeeds, the call with `k` and `v₂` that follows returns the duplicate-name
error and leaves the file as the first call left it. -/
theorem no_silent_duplication (tbl : Char → Bool) (outPath k v₁ v₂ : Str)
    (file file₁ : Option Str) (hk : isToken k)
    (h : writeOrAppendKey tbl none file outPath k v₁ = (file₁, none)) :
    writeOrAppendKey tbl none file₁ outPath k v₂
      = (file₁, some (.keyAlreadyExists k outPath)) := by
  have hknl := no_newline_of_isToken k hk
  have hbody : [] ++ "const ".toList ++ k ++ " =".toList ++ ' ' :: quote tbl v₁
      = "const ".toList ++ k ++ " = ".toList ++ quote tbl v₁ := by simp
  -- the file after the first call passes both scans
  have key : ∃ c₁, file₁ = some c₁ ∧ looksLikeKeysPackage c₁ = true
      ∧ keyExists c₁ k = true := by
    cases file with
    | none =>
      have hc : file₁ = some ("package keys\n\n".toList ++ declLine tbl k v₁) := by
        have := congrArg Prod.fst h
        simpa [writeOrAppendKey] using this.symm
      have hsplit : splitLines ("package keys\n\n".toList ++ declLine tbl k v₁)
          = ["package keys".toList, []]
            ++ ["const ".toList ++ k ++ " = ".toList ++ quote tbl v₁, []] := by
        have e1 : "package keys\n\n".toList ++ declLine tbl k v₁
            = "package keys".toList ++ '\n' :: ([] ++ '\n' ::
              (("const ".toList ++ k ++ " = ".toList ++ quote tbl v₁) ++ '\n' :: [])) := by
          simp [declLine]
        rw [e1, splitLines_append_newline, splitLines_append_newline,
          splitLines_append_newline, splitLines_of_no_newline _ (by decide),
          splitLines_of_no_newline ("const ".toList ++ k ++ " = ".toList ++ quote tbl v₁)]
        · rfl
        · intro x hx
          simp only [List.mem_append] at hx
          rcases hx with ((hx | hx) | hx) | hx
          · intro h; subst h; revert hx; decide
          · exact hknl x hx
          · intro h; subst h; revert hx; decide
          · exact quote_no_newline tbl v₁ x hx
      refine ⟨_, hc, ?_, ?_⟩
      · unfold looksLikeKeysPackage
        rw [hsplit]
        exact looksLikeKeysPackageLines_append _ _ (by decide)
      · unfold keyExists
        rw [hsplit]
        refine keyExistsLines_of_decl k hk _ [] (' ' :: quote tbl v₁) (by simp) ?_
        rw [hbody]
        simp
    | some c =>
      have hpkg : looksLikeKeysPackage c = true := by
        by_contra hno
        have hno' : looksLikeKeysPackage c = false := by simpa using hno
        have := congrArg Prod.snd h
        simp [writeOrAppendKey, hno'] at this
      have hnew : keyExists c k = false := by
        by_contra hyes
        have hyes' : keyExists c k = true := by simpa using hyes
        have := congrArg Prod.snd h
        simp [writeOrAppendKey, hpkg, hyes'] at this
      rw [writeOrAppendKey_existing tbl outPath c k v₁ hpkg hnew] at h
      have hc := (congrArg Prod.fst h).symm
      simp only at hc
      rcases splitLines_appended tbl c k v₁ hpkg hknl with ⟨mid, hsplit⟩
      refine ⟨_, hc, ?_, ?_⟩
      · unfold looksLikeKeysPackage
        rw [hsplit, List.append_assoc]
        exact looksLikeKeysPackageLines_append _ _ hpkg
      · unfold keyExists
        rw [hsplit]
        refine keyExistsLines_of_decl k hk _ [] (' ' :: quote tbl v₁) (by simp) ?_
        rw [hbody]
        simp
  rcases key with ⟨c₁, rfl, hpkg₁, hex₁⟩
  simp [writeOrAppendKey, hpkg₁, hex₁]

theorem no_silent_duplication_witness :
    isToken "ApiKey".toList
      ∧ writeOrAppendKey noTable none none "keys.go".toList "ApiKey".toList "aB3".toList
        = (some "package keys\n\nconst ApiKey = \"aB3\"\n".toList, none)
      ∧ writeOrAppendKey noTable none (some "package keys\n\nconst ApiKey = \"aB3\"\n".toList)
          "keys.go".toList "ApiKey".toList "zz9".toList
        = (some "package keys\n\nconst ApiKey = \"aB3\"\n".toList,
            some (.keyAlreadyExists "ApiKey".toList "keys.go".toList)) :=
  ⟨by decide, by decide,
    no_silent_duplication noTable "keys.go".toList "ApiKey".toList "aB3".toList "zz9".toList
      none _ (by decide) (by decide)⟩

/-! ## The generator: alphabet, threshold, failures -/

/-- C8 (alphabet containment). The index `b % alphabetLen` of a byte is within the
alphabet, and every character of every string that `randString` returns, for every `n`,
source and fuel, is a character of the alphabet, one of `a`-`z`, `A`-`Z`, `0`-`9`. -/
theorem randString_alphabet (src : Source) (fuel : Nat) (n : Int) (s : Str)
    (e : Option Error) (reads : Nat) :
    (∀ b : Nat, b % 256 % alphabetLen < alphabet.length)
      ∧ (∀ c ∈ alphabet, isAlnum c = true)
      ∧ (randString src fuel n = some (s, e, reads) →
          ∀ c ∈ s, c ∈ alphabet ∧ isAlnum c = true) := by
  have halnum : ∀ c ∈ alphabet, isAlnum c = true := by decide
  refine ⟨fun b => index_lt_length _, halnum, ?_⟩
  intro h c hc
  have hmem : c ∈ alphabet := by
    rw [randString] at h
    by_cases hn : n ≤ 0
    · rw [if_pos hn] at h
      simp only [Option.some.injEq, Prod.mk.injEq] at h
      rw [← h.1] at hc
      simp at hc
    · rw [if_neg hn] at h
      exact randLoop_mem src n.toNat fuel 0 [] s e reads (by simp) h c hc
  exact ⟨hmem, halnum c hmem⟩

theorem randString_alphabet_witness :
    ∀ c ∈ "78978".toList, c ∈ alphabet ∧ isAlnum c = true :=
  (randString_alphabet (countingSource 245) 3 5 "78978".toList none 2).2.2 (by decide)

/-- C9 (bias-free threshold). The limit is `248 = 256 / 62 * 62`, computed without
leaving the byte range; the alphabet has 62 pairwise distinct characters; and each
character of the alphabet is selected by exactly 4 of the byte values below the limit. -/
theorem bias_free_threshold :
    maxMultiple = 248 ∧ alphabetLen = 62 ∧ alphabet.length = 62
      ∧ 256 / alphabetLen * alphabetLen = 248 ∧ 256 / alphabetLen * alphabetLen < 256
      ∧ alphabet.Nodup
      ∧ ∀ c ∈ alphabet,
          ((List.range 256).filter (fun b =>
            decide (b < maxMultiple) && (alphabet.get? (b % alphabetLen) == some c))).length
            = 4 := by
  refine ⟨by decide, by decide, by decide, by decide, by decide, by decide, ?_⟩
  decide

/-- C10 (failure modes). For `n > 0`, when a read fails before `n` symbols have been
accepted, `randString` returns that error with the empty string; for `n ≤ 0` it returns
the length error with no read of the source; and whenever it returns an error the string
is empty and one of these two cases holds. -/
theorem randString_failure_modes (src : Source) (n : Int) :
    (0 < n → ∀ k e, (∀ i, i < k → ∃ f, src i = .ok f) → src k = .error e →
        acceptedFrom src (n.toNat * 2) 0 k < n.toNat →
        ∀ fuel, k < fuel → randString src fuel n = some ([], some e, k + 1))
      ∧ (n ≤ 0 → ∀ fuel, randString src fuel n = some ([], some .badLength, 0))
      ∧ (∀ fuel s e reads, randString src fuel n = some (s, some e, reads) →
          s = [] ∧ ((n ≤ 0 ∧ e = .badLength ∧ reads = 0)
            ∨ (0 < n ∧ ∃ k, reads = k + 1 ∧ src k = .error e
                ∧ (∀ i, i < k → ∃ f, src i = .ok f)
                ∧ acceptedFrom src (n.toNat * 2) 0 k < n.toNat))) := by
  refine ⟨?_, ?_, ?_⟩
  · intro hn k e hok herr hacc fuel hf
    rw [randString, if_neg (by omega)]
    have := randLoop_fails src n.toNat e k 0 []
      (fun i _ h => hok i (by omega)) (by simpa using herr) (by simpa using hacc) fuel hf
    simpa using this
  · intro hn fuel
    rw [randString, if_pos hn]
  · intro fuel s e reads h
    rw [randString] at h
    by_cases hn : n ≤ 0
    · rw [if_pos hn] at h
      simp only [Option.some.injEq, Prod.mk.injEq] at h
      exact ⟨h.1.symm, Or.inl ⟨hn, h.2.1.symm, h.2.2.symm⟩⟩
    · rw [if_neg hn] at h
      obtain ⟨hs, k, hr, herr, hok, hacc⟩ :=
        randLoop_error_inv src n.toNat fuel 0 [] s e reads (by simp) h
      refine ⟨hs, Or.inr ⟨by omega, k, by omega, by simpa using herr, ?_, by simpa using hacc⟩⟩
      intro i hi
      exact hok i (by omega) (by omega)

theorem randString_failure_modes_witness :
    randString (failingSource 1 (.entropy 5)) 3 4 = some ([], some (.entropy 5), 2)
      ∧ randString (failingSource 1 (.entropy 5)) 3 0 = some ([], some .badLength, 0) :=
  ⟨(randString_failure_modes (failingSource 1 (.entropy 5)) 4).1 (by decide) 1 (.entropy 5)
      (fun i hi => ⟨fun j => 250 + j, by
        have : i = 0 := by omega
        subst this
        rfl⟩) rfl (by decide) 3 (by decide),
    (randString_failure_modes (failingSource 1 (.entropy 5)) 0).2.1 (by decide) 3⟩

/-! ## Lemmas on the sampling -/

theorem alphabet_get_eq_getD (b : Nat) (h : b % alphabetLen < alphabet.length) :
    alphabet.get ⟨b % alphabetLen, h⟩ = alphabet.getD (b % 62) 'a' := by
  have e : alphabetLen = 62 := by decide
  have h' : b % 62 < alphabet.length := by rw [← e]; exact h
  rw [List.getD_eq_getElem _ _ h']
  simp only [List.get_eq_getElem, e]

theorem fillFrom_eq_sample (n : Nat) (buf : List Nat) (out : Str) (h : out.length < n) :
    fillFrom n buf out
      = out ++ ((buf.filter (fun b => decide (b < 248))).take (n - out.length)).map
          (fun b => alphabet.getD (b % 62) 'a') := by
  have hmax : maxMultiple = 248 := by decide
  induction buf generalizing out with
  | nil => simp [fillFrom]
  | cons b buf ih =>
    rw [fillFrom]
    by_cases hb : b ≥ maxMultiple
    · rw [if_pos hb, ih out h, List.filter_cons_of_neg (by rw [hmax] at hb; simpa using hb)]
    · rw [if_neg hb, List.filter_cons_of_pos (by rw [hmax] at hb; simpa using hb)]
      obtain ⟨d, hd⟩ : ∃ d, n - out.length = d + 1 := ⟨n - out.length - 1, by omega⟩
      rw [hd, List.take_succ_cons, List.map_cons, alphabet_get_eq_getD]
      by_cases hfull : (out ++ [alphabet.getD (b % 62) 'a']).length = n
      · simp only [hfull, if_true]
        have hd0 : d = 0 := by
          simp only [List.length_append, List.length_singleton] at hfull
          omega
        rw [hd0]
        simp
      · simp only [hfull, if_false]
        have hlen : (out ++ [alphabet.getD (b % 62) 'a']).length = out.length + 1 := by simp
        rw [ih _ (by omega), hlen, show n - (out.length + 1) = d by omega]
        simp

theorem acceptedFrom_eq_filter (src : Source) (len : Nat) (a k : Nat) :
    acceptedFrom src len a k
      = ((streamFrom src len a k).filter (fun b => decide (b < 248))).length := by
  have hmax : maxMultiple = 248 := by decide
  induction k generalizing a with
  | zero => simp [acceptedFrom, streamFrom]
  | succ k ih =>
    rw [acceptedFrom, streamFrom, List.filter_append, List.length_append, ih,
      List.countP_eq_length_filter, hmax]

/-- From a state of the loop, with a source that never fails and enough bytes below the
limit in the next `k` buffers, the loop returns the current string completed by the first
accepted bytes of those buffers. -/
theorem randLoopLen_sample (len : Nat) (src : Source) (n : Nat)
    (hok : ∀ i, ∃ f, src i = .ok f) :
    ∀ k reads (out : Str), out.length ≤ n →
      n ≤ out.length + ((streamFrom src len reads k).filter (fun b => decide (b < 248))).length →
      ∃ r, ∀ fuel, k < fuel → randLoopLen len src n fuel reads out
        = some (out ++ (((streamFrom src len reads k).filter (fun b => decide (b < 248))).take
            (n - out.length)).map (fun b => alphabet.getD (b % 62) 'a'), none, r) := by
  intro k
  induction k with
  | zero =>
    intro reads out h1 h2
    simp only [streamFrom, List.filter_nil, List.length_nil, Nat.add_zero] at h2
    refine ⟨reads, ?_⟩
    intro fuel hf
    obtain ⟨g, rfl⟩ : ∃ g, fuel = g + 1 := ⟨fuel - 1, by omega⟩
    rw [randLoopLen, if_neg (by omega)]
    simp [streamFrom]
  | succ k ih =>
    intro reads out h1 h2
    by_cases hlt : out.length < n
    · obtain ⟨f, hf⟩ := hok reads
      have hb : batch src len reads = readBuf f len := batch_of_ok src len reads f hf
      have hfill := fillFrom_eq_sample n (readBuf f len) out hlt
      rw [streamFrom, hb, List.filter_append, List.length_append] at h2
      have hlen : (fillFrom n (readBuf f len) out).length
          = out.length + min (n - out.length)
              ((readBuf f len).filter (fun b => decide (b < 248))).length := by
        rw [hfill]
        simp
      obtain ⟨r, hrun⟩ := ih (reads + 1) (fillFrom n (readBuf f len) out)
        (by omega) (by omega)
      refine ⟨r, ?_⟩
      intro fuel hfuel
      obtain ⟨g, rfl⟩ : ∃ g, fuel = g + 1 := ⟨fuel - 1, by omega⟩
      rw [randLoopLen, if_pos hlt, hf]
      simp only []
      rw [hrun g (by omega), streamFrom, hb, List.filter_append,
        List.take_append_eq_append_take, List.map_append, hlen]
      rw [hfill, List.append_assoc]
      have harith : n - (out.length + min (n - out.length)
            ((readBuf f len).filter (fun b => decide (b < 248))).length)
          = n - out.length - ((readBuf f len).filter (fun b => decide (b < 248))).length := by
        omega
      rw [harith]
    · refine ⟨reads, ?_⟩
      intro fuel hf
      obtain ⟨g, rfl⟩ : ∃ g, fuel = g + 1 := ⟨fuel - 1, by omega⟩
      rw [randLoopLen, if_neg hlt, show n - out.length = 0 by omega]
      simp

theorem randLoop_eq_randLoopLen (src : Source) (n : Nat) :
    ∀ fuel reads (out : Str),
      randLoop src n fuel reads out = randLoopLen (n * 2) src n fuel reads out := by
  intro fuel
  induction fuel with
  | zero => intro reads out; rfl
  | succ fuel ih =>
    intro reads out
    rw [randLoop, randLoopLen]
    by_cases hlt : out.length < n
    · rw [if_pos hlt, if_pos hlt]
      cases src reads with
      | error e => rfl
      | ok f => exact ih _ _
    · rw [if_neg hlt, if_neg hlt]

theorem sample_step (n : Nat) (buf rest : List Nat) (out : Str) (h : out.length < n) :
    fillFrom n buf out
        ++ ((rest.filter (fun b => decide (b < 248))).take
            (n - (fillFrom n buf out).length)).map (fun b => alphabet.getD (b % 62) 'a')
      = out ++ (((buf ++ rest).filter (fun b => decide (b < 248))).take
          (n - out.length)).map (fun b => alphabet.getD (b % 62) 'a') := by
  have hfill := fillFrom_eq_sample n buf out h
  have hlen : (fillFrom n buf out).length
      = out.length + min (n - out.length)
          (buf.filter (fun b => decide (b < 248))).length := by
    rw [hfill]
    simp
  have harith : n - (out.length + min (n - out.length)
        (buf.filter (fun b => decide (b < 248))).length)
      = n - out.length - (buf.filter (fun b => decide (b < 248))).length := by
    omega
  rw [hlen, harith, hfill, List.filter_append, List.take_append_eq_append_take,
    List.map_append, List.append_assoc]

/-- Whatever the loop returns without an error is the current string completed by the
first accepted bytes of the buffers it has read. -/
theorem randLoopLen_success_inv (len : Nat) (src : Source) (n : Nat) :
    ∀ fuel reads (out s : Str) r, out.length ≤ n →
      randLoopLen len src n fuel reads out = some (s, none, r) →
      ∃ k, r = reads + k ∧ s.length = n
        ∧ s = out ++ (((streamFrom src len reads k).filter (fun b => decide (b < 248))).take
            (n - out.length)).map (fun b => alphabet.getD (b % 62) 'a') := by
  intro fuel
  induction fuel with
  | zero => intro reads out s r _ h; simp [randLoopLen] at h
  | succ fuel ih =>
    intro reads out s r hle h
    rw [randLoopLen] at h
    by_cases hlt : out.length < n
    · rw [if_pos hlt] at h
      cases hsrc : src reads with
      | error err =>
        rw [hsrc] at h
        simp at h
      | ok f =>
        rw [hsrc] at h
        have hfl : (fillFrom n (readBuf f len) out).length ≤ n := by
          rw [fillFrom_eq_sample n _ out hlt]
          simp
          omega
        obtain ⟨k, hr, hs, heq⟩ := ih _ _ s r hfl h
        refine ⟨k + 1, by omega, hs, ?_⟩
        rw [heq, streamFrom, batch_of_ok src len reads f hsrc]
        exact sample_step n _ _ out hlt
    · rw [if_neg hlt] at h
      simp only [Option.some.injEq, Prod.mk.injEq] at h
      refine ⟨0, by omega, by rw [← h.1]; omega, ?_⟩
      rw [← h.1]
      simp [streamFrom]

theorem streamFrom_add (src : Source) (len : Nat) (a k j : Nat) :
    streamFrom src len a (k + j) = streamFrom src len a k ++ streamFrom src len (a + k) j := by
  induction k generalizing a with
  | zero => simp [streamFrom]
  | succ k ih =>
    rw [show k + 1 + j = (k + j) + 1 by omega, streamFrom, streamFrom, ih, List.append_assoc,
      show a + 1 + k = a + (k + 1) by omega]

theorem sampleOfStream_append (s₁ s₂ : List Nat) (n : Nat)
    (h : n ≤ (s₁.filter (fun b => decide (b < 248))).length) :
    sampleOfStream (s₁ ++ s₂) n = sampleOfStream s₁ n := by
  unfold sampleOfStream
  rw [List.filter_append, List.take_append_of_le_length h]

theorem streamFrom_chunked (g : Nat → Nat) (len a k : Nat) :
    streamFrom (chunked g len) len a k
      = (List.range (k * len)).map (fun j => g (a * len + j) % 256) := by
  induction k generalizing a with
  | zero => simp [streamFrom]
  | succ k ih =>
    rw [streamFrom, ih, show (k + 1) * len = len + k * len by ring, List.range_add,
      List.map_append, List.map_map]
    congr 1
    apply List.map_congr_left
    intro j _
    simp only [Function.comp]
    congr 2
    ring

theorem readBuf_add (g : Nat → Nat) (k d : Nat) :
    readBuf g (k + d) = readBuf g k ++ (List.range d).map (fun j => g (k + j) % 256) := by
  unfold readBuf
  rw [List.range_add, List.map_append, List.map_map]
  rfl

/-! ## Lemmas on the generator on a machine -/

theorem goInt_of_le_maxAlloc (m : Machine) (x : Int) (h0 : 0 < x)
    (h1 : x ≤ (m.maxAlloc : Int)) : goInt m x = x := by
  have hlt : (m.maxAlloc : Int) < 2 ^ (m.intBits - 1) := by
    exact_mod_cast m.maxAlloc_lt
  have hbits : m.intBits ≠ 0 := by
    intro hz
    rw [hz] at hlt
    simp only [Nat.zero_sub, pow_zero] at hlt
    omega
  obtain ⟨b, hb⟩ : ∃ b, m.intBits = b + 1 := ⟨m.intBits - 1, by omega⟩
  unfold goInt
  rw [hb] at hlt ⊢
  simp only [Nat.add_sub_cancel] at hlt ⊢
  have hpow : (2 : Int) ^ (b + 1) = 2 * 2 ^ b := by ring
  have hpos : (0 : Int) < 2 ^ b := by positivity
  rw [hpow, Int.emod_eq_of_lt (by omega) (by omega)]
  omega

theorem randStringOn_eq_randString (m : Machine) (src : Source) (fuel : Nat) (n : Int)
    (hn : 0 < n) (h : n * 2 ≤ (m.maxAlloc : Int)) :
    randStringOn m src fuel n
      = (randString src fuel n).map (fun r => Outcome.returned r.1 r.2.1 r.2.2) := by
  have hnot : ¬ n ≤ 0 := by omega
  have h1 : canMake m n = true := by
    simp only [canMake, Bool.and_eq_true, decide_eq_true_eq]
    omega
  have hw : goInt m (n * 2) = n * 2 := goInt_of_le_maxAlloc m _ (by omega) h
  have h2 : canMake m (n * 2) = true := by
    simp only [canMake, Bool.and_eq_true, decide_eq_true_eq]
    omega
  have hlen : (n * 2).toNat = n.toNat * 2 := by omega
  rw [randStringOn, randString, if_neg hnot, if_neg hnot, hw, h1, h2, hlen,
    randLoop_eq_randLoopLen]
  rfl

theorem acceptedFrom_zeroSource (len a k : Nat) :
    acceptedFrom zeroSource len a k = k * len := by
  have hmax : maxMultiple = 248 := by decide
  have hb : ∀ a, batch zeroSource len a = List.replicate len 0 := by
    intro a
    simp [batch, zeroSource, readBuf]
  induction k generalizing a with
  | zero => simp [acceptedFrom]
  | succ k ih =>
    rw [acceptedFrom, ih, hb, hmax]
    simp [List.countP_replicate]
    ring

/-! ## The length of the string returned -/

/-- C7, as stated, fails for a length that Go cannot allocate: with `n = 2^62`, and a
source that never fails and delivers only bytes below the limit, `randString` panics on a
64-bit machine whatever the fuel, in `make([]byte, 0, n)` when slices hold at most `2^48`
bytes, and in `make([]byte, n*2)`, `n*2` having wrapped to a negative `int`, on a machine
that could give `2^62` bytes. -/
theorem randString_panics_on_large_length :
    (0 : Int) < 2 ^ 62
      ∧ (∀ i, zeroSource i = .ok (fun _ => 0))
      ∧ (∀ len k, acceptedFrom zeroSource len 0 k = k * len)
      ∧ (∀ fuel, randStringOn amd64 zeroSource fuel (2 ^ 62) = some .panicked)
      ∧ goInt largeMemory64 (2 ^ 62 * 2) = -2 ^ 63
      ∧ (∀ fuel, randStringOn largeMemory64 zeroSource fuel (2 ^ 62) = some .panicked) := by
  refine ⟨by decide, fun _ => rfl, fun len k => acceptedFrom_zeroSource len 0 k, ?_,
    by decide, ?_⟩
  · intro fuel
    have h1 : ¬ ((2 : Int) ^ 62 ≤ 0) := by decide
    have h2 : canMake amd64 (2 ^ 62) = false := by decide
    rw [randStringOn, if_neg h1, h2]
    rfl
  · intro fuel
    have h1 : ¬ ((2 : Int) ^ 62 ≤ 0) := by decide
    have h2 : canMake largeMemory64 (2 ^ 62) = true := by decide
    have h3 : canMake largeMemory64 (goInt largeMemory64 (2 ^ 62 * 2)) = false := by decide
    rw [randStringOn, if_neg h1, h2, h3]
    rfl

/-- C7 (length invariant), for a length within the limits of the machine. For every
machine and every `n > 0` with `n*2` at most the largest slice of the machine, and every
source that never fails and, within some number of reads, supplies `n` bytes below the
limit, `randString` returns, for all fuel from some point on, one string of exactly `n`
characters and no error; for every `n ≤ 0` it returns an error and the empty string. -/
theorem randString_length_within_limits (m : Machine) (src : Source) (n : Int) :
    (0 < n → n * 2 ≤ (m.maxAlloc : Int) → (∀ i, ∃ f, src i = .ok f) →
        (∃ k, n.toNat ≤ acceptedFrom src (n.toNat * 2) 0 k) →
        ∃ fuel s reads,
          (∀ fuel', fuel ≤ fuel' → randStringOn m src fuel' n = some (.returned s none reads))
            ∧ (s.length : Int) = n)
      ∧ (n ≤ 0 → ∀ fuel, randStringOn m src fuel n = some (.returned [] (some .badLength) 0)) := by
  constructor
  · rintro hn hmax hok ⟨k, hk⟩
    obtain ⟨s, r, hs, hrun⟩ := randLoop_terminates src n.toNat hok k 0 [] (by simp)
      (by simpa using hk)
    refine ⟨k + 1, s, r, ?_, ?_⟩
    · intro fuel' hf
      rw [randStringOn_eq_randString m src fuel' n hn hmax, randString, if_neg (by omega),
        hrun fuel' (by omega)]
      rfl
    · rw [hs]
      exact Int.toNat_of_nonneg (by omega)
  · intro hn fuel
    rw [randStringOn, if_pos hn]

theorem randString_length_within_limits_witness :
    (∃ fuel s reads,
        (∀ fuel', fuel ≤ fuel' →
          randStringOn amd64 (countingSource 245) fuel' 4 = some (.returned s none reads))
          ∧ (s.length : Int) = 4)
      ∧ randStringOn amd64 (countingSource 245) 0 (-1)
        = some (.returned [] (some .badLength) 0) :=
  ⟨(randString_length_within_limits amd64 (countingSource 245) 4).1 (by decide) (by decide)
      (fun _ => ⟨_, rfl⟩) ⟨2, by decide⟩,
    (randString_length_within_limits amd64 (countingSource 245) (-1)).2 (by decide) 0⟩

/-! ## The generator against its reference definition -/

/-- C11 (rejection sampling and batching). For every `n > 0`: with a source that never
fails and whose first `m` buffers of `2n` bytes hold `n` bytes below the limit,
`randString` returns the reference sample of the concatenated buffers (bytes of 248 or more
deleted, first `n` kept, each mapped to the alphabet at `b mod 62`); any string it returns
without error is that sample, of the buffers read or of more of them; and with the same
byte stream cut into buffers of any other length, one byte at a time for instance, the
loop returns the same sample of the stream. -/
theorem randString_is_rejection_sampling (n : Int) (hn : 0 < n) :
    (∀ (src : Source) (m : Nat), (∀ i, ∃ f, src i = .ok f) →
        n.toNat ≤ acceptedFrom src (n.toNat * 2) 0 m →
        ∃ reads, ∀ fuel, m < fuel → randString src fuel n
          = some (sampleOfStream (streamFrom src (n.toNat * 2) 0 m) n.toNat, none, reads))
      ∧ (∀ (src : Source) (fuel : Nat) (s : Str) (reads : Nat),
          randString src fuel n = some (s, none, reads) →
          ∀ m, reads ≤ m → s = sampleOfStream (streamFrom src (n.toNat * 2) 0 m) n.toNat)
      ∧ (∀ (src : Source) (fuel : Nat),
          randString src fuel n = randStringLen (n.toNat * 2) src fuel n)
      ∧ (∀ (g : Nat → Nat) (len k : Nat), 0 < len →
          n.toNat ≤ ((readBuf g k).filter (fun b => decide (b < 248))).length →
          ∃ reads, ∀ fuel, k < fuel → randStringLen len (chunked g len) fuel n
            = some (sampleOfStream (readBuf g k) n.toNat, none, reads)) := by
  have hnot : ¬ n ≤ 0 := by omega
  have hbridge : ∀ (src : Source) (fuel : Nat),
      randString src fuel n = randStringLen (n.toNat * 2) src fuel n := by
    intro src fuel
    rw [randString, randStringLen, if_neg hnot, if_neg hnot]
    exact randLoop_eq_randLoopLen src n.toNat fuel 0 []
  refine ⟨?_, ?_, hbridge, ?_⟩
  · intro src m hok hacc
    rw [acceptedFrom_eq_filter] at hacc
    obtain ⟨r, hrun⟩ := randLoopLen_sample (n.toNat * 2) src n.toNat hok m 0 []
      (by simp) (by simpa using hacc)
    refine ⟨r, ?_⟩
    intro fuel hf
    rw [hbridge, randStringLen, if_neg hnot, hrun fuel hf]
    simp [sampleOfStream]
  · intro src fuel s reads h m hm
    rw [hbridge, randStringLen, if_neg hnot] at h
    obtain ⟨k, hr, hs, heq⟩ :=
      randLoopLen_success_inv (n.toNat * 2) src n.toNat fuel 0 [] s reads (by simp) h
    have hk : k = reads := by omega
    subst hk
    have hsample : s = sampleOfStream (streamFrom src (n.toNat * 2) 0 k) n.toNat := by
      rw [heq]
      simp [sampleOfStream]
    have hfull : n.toNat
        ≤ ((streamFrom src (n.toNat * 2) 0 k).filter (fun b => decide (b < 248))).length := by
      have := congrArg List.length hsample
      rw [hs] at this
      simp only [sampleOfStream, List.length_map, List.length_take] at this
      omega
    obtain ⟨d, rfl⟩ : ∃ d, m = k + d := ⟨m - k, by omega⟩
    rw [streamFrom_add, sampleOfStream_append _ _ _ hfull]
    exact hsample
  · intro g len k hlen hacc
    obtain ⟨d, hd⟩ : ∃ d, k * len = k + d := ⟨k * len - k, by
      have : k ≤ k * len := Nat.le_mul_of_pos_right k hlen
      omega⟩
    have hstream : streamFrom (chunked g len) len 0 k
        = readBuf g k ++ (List.range d).map (fun j => g (k + j) % 256) := by
      rw [streamFrom_chunked, hd, ← readBuf_add]
      unfold readBuf
      apply List.map_congr_left
      intro j _
      simp
    have hfull : n.toNat ≤ ((streamFrom (chunked g len) len 0 k).filter
        (fun b => decide (b < 248))).length := by
      rw [hstream, List.filter_append, List.length_append]
      omega
    obtain ⟨r, hrun⟩ := randLoopLen_sample len (chunked g len) n.toNat
      (fun i => ⟨_, rfl⟩) k 0 [] (by simp) (by simpa using hfull)
    refine ⟨r, ?_⟩
    intro fuel hf
    rw [randStringLen, if_neg hnot, hrun fuel hf, hstream]
    have := sampleOfStream_append (readBuf g k)
      ((List.range d).map (fun j => g (k + j) % 256)) n.toNat hacc
    rw [← this]
    simp [sampleOfStream]

theorem randString_is_rejection_sampling_witness :
    (∃ reads, ∀ fuel, 2 < fuel → randString (chunked (fun j => 245 + j) 8) fuel 4
        = some (sampleOfStream (streamFrom (chunked (fun j => 245 + j) 8) 8 0 2) 4, none, reads))
      ∧ sampleOfStream (streamFrom (chunked (fun j => 245 + j) 8) 8 0 2) 4 = "789a".toList
      ∧ (∃ reads, ∀ fuel, 12 < fuel → randStringLen 1 (chunked (fun j => 245 + j) 1) fuel 4
        = some (sampleOfStream (readBuf (fun j => 245 + j) 12) 4, none, reads))
      ∧ sampleOfStream (readBuf (fun j => 245 + j) 12) 4 = "789a".toList :=
  ⟨(randString_is_rejection_sampling 4 (by decide)).1 (chunked (fun j => 245 + j) 8) 2
      (fun _ => ⟨_, rfl⟩) (by decide),
    by decide,
    (randString_is_rejection_sampling 4 (by decide)).2.2.2 (fun j => 245 + j) 1 12
      (by decide) (by decide),
    by decide⟩

/-! ## Lemmas on the scans -/

theorem splitLines_eq_splitOn (s : Str) : splitLines s = s.splitOn '\n' := by
  induction s with
  | nil => rfl
  | cons c cs ih =>
    have hne := splitLines_ne_nil cs
    rw [List.splitOn, List.splitOnP_cons, ← List.splitOn, ← ih, splitLines]
    by_cases hc : c = '\n'
    · simp [hc]
    · cases hs : splitLines cs with
      | nil => exact absurd hs hne
      | cons l ls => simp [hc]

theorem fieldsFrom_eq_go (s acc : Str) :
    fieldsFrom acc.reverse s
      = (List.splitOnP.go isSpace s acc).filter (fun w => !w.isEmpty) := by
  induction s generalizing acc with
  | nil =>
    rw [fieldsFrom, List.splitOnP.go]
    by_cases h : acc.reverse.isEmpty = true
    · simp [h]
    · simp [h]
  | cons c cs ih =>
    rw [fieldsFrom, List.splitOnP.go]
    by_cases hc : isSpace c = true
    · have h0 := ih []
      rw [List.reverse_nil] at h0
      rw [if_pos hc, if_pos hc, h0]
      by_cases h : acc.reverse.isEmpty = true
      · simp [h]
      · simp [h]
    · rw [if_neg hc, if_neg hc, ← ih (c :: acc)]
      simp

theorem fields_eq_tokens (s : Str) : fields s = tokens s := by
  have := fieldsFrom_eq_go s []
  simpa [fields, tokens, List.splitOnP] using this

/-! ## The scans -/

/-- C12 (identity scan). For every text, `looksLikeKeysPackage` is true exactly when some
line (the text split on the newline), trimmed, begins with `package ` and the first such
line, trimmed, is `package keys`; and two texts that agree up to the first such line give
the same result, whatever lines follow it. -/
theorem identity_scan_characterised (src : Str) :
    splitLines src = src.splitOn '\n'
      ∧ (looksLikeKeysPackage src = true ↔
          ∃ pre l post, splitLines src = pre ++ l :: post
            ∧ (∀ x ∈ pre, hasPrefix (trimSpace x) "package ".toList = false)
            ∧ hasPrefix (trimSpace l) "package ".toList = true
            ∧ trimSpace l = "package keys".toList)
      ∧ (∀ pre l post, splitLines src = pre ++ l :: post →
          (∀ x ∈ pre, hasPrefix (trimSpace x) "package ".toList = false) →
          hasPrefix (trimSpace l) "package ".toList = true →
          ∀ src₁ post₁, splitLines src₁ = pre ++ l :: post₁ →
            looksLikeKeysPackage src₁ = looksLikeKeysPackage src) := by
  refine ⟨splitLines_eq_splitOn src, ?_, ?_⟩
  · unfold looksLikeKeysPackage
    rw [looksLikeKeysPackageLines_iff]
    constructor
    · rintro ⟨pre, l, post, he, hpre, hl⟩
      exact ⟨pre, l, post, he, hpre, by rw [hl]; decide, hl⟩
    · rintro ⟨pre, l, post, he, hpre, _, hl⟩
      exact ⟨pre, l, post, he, hpre, hl⟩
  · intro pre l post he hpre hl src₁ post₁ he₁
    unfold looksLikeKeysPackage
    rw [he, he₁, looksLikeKeysPackageLines_first pre post l hpre hl,
      looksLikeKeysPackageLines_first pre post₁ l hpre hl]

theorem identity_scan_characterised_witness :
    looksLikeKeysPackage "// k\n package keys \npackage main\n".toList
      = looksLikeKeysPackage "// k\n package keys \nconst A = \"x\"".toList :=
  (identity_scan_characterised "// k\n package keys \nconst A = \"x\"".toList).2.2
    ["// k".toList] " package keys ".toList ["const A = \"x\"".toList]
    (by decide) (by decide) (by decide)
    "// k\n package keys \npackage main\n".toList ["package main".toList, []] (by decide)

/-- C13 (duplicate scan). For every text and name, `keyExists` is true exactly when some
line, trimmed, begins with `const ` and its second white-space-separated token is the
name; the whole token is compared: with the declaration of `ApiKey`, neither `Api` nor
`Key` exists, `ApiKey` does. -/
theorem duplicate_scan_characterised (src k : Str) :
    (keyExists src k = true ↔
        ∃ l ∈ splitLines src, hasPrefix (trimSpace l) "const ".toList = true
          ∧ (tokens (trimSpace l)).get? 1 = some k)
      ∧ (∀ s, fields s = tokens s)
      ∧ keyExists "package keys\n\nconst ApiKey = \"x\"\n".toList "Api".toList = false
      ∧ keyExists "package keys\n\nconst ApiKey = \"x\"\n".toList "Key".toList = false
      ∧ keyExists "package keys\n\nconst ApiKey = \"x\"\n".toList "ApiKey".toList = true := by
  refine ⟨?_, fields_eq_tokens, by decide, by decide, by decide⟩
  unfold keyExists
  rw [keyExistsLines_iff]
  constructor
  · rintro ⟨l, hl, hp, hf⟩
    exact ⟨l, hl, hp, by rw [← fields_eq_tokens]; exact hf⟩
  · rintro ⟨l, hl, hp, hf⟩
    exact ⟨l, hl, hp, by rw [fields_eq_tokens]; exact hf⟩

/-! ## Lemmas on the append -/

/-- A successful call on an existing file: the file passed both checks and the new
content is the old one, the newlines and the line. -/
theorem writeOrAppendKey_success_inv (tbl : Char → Bool) (outPath c k v : Str)
    (file₁ : Option Str) (h : writeOrAppendKey tbl none (some c) outPath k v = (file₁, none)) :
    looksLikeKeysPackage c = true ∧ keyExists c k = false
      ∧ file₁ = some (c ++ (if c.getLast? = some '\n' then [] else ['\n'])
          ++ (if trimSpace c = [] then [] else ['\n']) ++ declLine tbl k v) := by
  have hpkg : looksLikeKeysPackage c = true := by
    by_contra hno
    have hno' : looksLikeKeysPackage c = false := by simpa using hno
    have := congrArg Prod.snd h
    simp [writeOrAppendKey, hno'] at this
  have hnew : keyExists c k = false := by
    by_contra hyes
    have hyes' : keyExists c k = true := by simpa using hyes
    have := congrArg Prod.snd h
    simp [writeOrAppendKey, hpkg, hyes'] at this
  rw [writeOrAppendKey_existing tbl outPath c k v hpkg hnew] at h
  exact ⟨hpkg, hnew, (congrArg Prod.fst h).symm⟩

/-- The lines after a successful append: the old lines, at most one blank line, the
declaration and the empty last line. -/
theorem splitLines_appended_blank (tbl : Char → Bool) (c k v : Str)
    (h1 : looksLikeKeysPackage c = true) (hk : ∀ x ∈ k, x ≠ '\n') :
    ∃ mid, (∀ l ∈ mid, l = [])
      ∧ splitLines (c ++ (if c.getLast? = some '\n' then [] else ['\n'])
          ++ (if trimSpace c = [] then [] else ['\n']) ++ declLine tbl k v)
        = splitLines c ++ mid
          ++ ["const ".toList ++ k ++ " = ".toList ++ quote tbl v, []] := by
  have ht := trimSpace_ne_nil_of_looksLike c h1
  have hdl : splitLines (declLine tbl k v)
      = ["const ".toList ++ k ++ " = ".toList ++ quote tbl v, []] := by
    have e : declLine tbl k v
        = ("const ".toList ++ k ++ " = ".toList ++ quote tbl v) ++ '\n' :: [] := by
      simp [declLine]
    rw [e, splitLines_append_newline, splitLines_of_no_newline]
    · rfl
    · intro x hx
      simp only [List.mem_append] at hx
      rcases hx with ((hx | hx) | hx) | hx
      · intro h; subst h; revert hx; decide
      · exact hk x hx
      · intro h; subst h; revert hx; decide
      · exact quote_no_newline tbl v x hx
  rw [if_neg ht]
  by_cases hl : c.getLast? = some '\n'
  · refine ⟨[], by simp, ?_⟩
    rw [if_pos hl]
    have e : c ++ [] ++ ['\n'] ++ declLine tbl k v = c ++ '\n' :: declLine tbl k v := by simp
    rw [e, splitLines_append_newline, hdl]
    simp
  · refine ⟨[[]], by simp, ?_⟩
    rw [if_neg hl]
    have e : c ++ ['\n'] ++ ['\n'] ++ declLine tbl k v
        = c ++ '\n' :: ([] ++ '\n' :: declLine tbl k v) := by simp
    rw [e, splitLines_append_newline, splitLines_append_newline, hdl]
    simp [splitLines]

theorem keyExistsLines_blank (n : Str) (mid : List Str) (h : ∀ l ∈ mid, l = []) :
    keyExistsLines n mid = false := by
  rw [Bool.eq_false_iff]
  intro hex
  rcases (keyExistsLines_iff _ _).1 hex with ⟨l, hl, hp, _⟩
  rw [h l hl] at hp
  exact absurd hp (by decide)

/-- The names found after a successful append: the names found before, and the new one. -/
theorem keyExists_appended (tbl : Char → Bool) (c k v : Str)
    (h1 : looksLikeKeysPackage c = true) (hk : isToken k) (n : Str) :
    keyExists (c ++ (if c.getLast? = some '\n' then [] else ['\n'])
        ++ (if trimSpace c = [] then [] else ['\n']) ++ declLine tbl k v) n = true
      ↔ (keyExists c n = true ∨ n = k) := by
  obtain ⟨mid, hmid, hsplit⟩ :=
    splitLines_appended_blank tbl c k v h1 (no_newline_of_isToken k hk)
  have hsecond := declaration_second_field k hk [] (' ' :: quote tbl v) (by simp)
  have hform : [] ++ "const ".toList ++ k ++ " =".toList ++ ' ' :: quote tbl v
      = "const ".toList ++ k ++ " = ".toList ++ quote tbl v := by simp
  rw [hform] at hsecond
  unfold keyExists
  rw [hsplit, keyExistsLines_append, keyExistsLines_append, keyExistsLines_blank n mid hmid,
    Bool.or_false, Bool.or_eq_true]
  have hlast : keyExistsLines n ["const ".toList ++ k ++ " = ".toList ++ quote tbl v, []] = true
      ↔ n = k := by
    rw [keyExistsLines_iff]
    constructor
    · rintro ⟨l, hl, hp, hf⟩
      rcases List.mem_cons.1 hl with rfl | hl
      · rw [hsecond.2] at hf
        exact (Option.some.inj hf).symm
      · rw [List.mem_singleton.1 hl] at hp
        exact absurd hp (by decide)
    · rintro rfl
      exact ⟨_, by simp, hsecond.1, hsecond.2⟩
  rw [hlast]

theorem looksLikeKeysPackage_appended (tbl : Char → Bool) (c k v : Str)
    (h1 : looksLikeKeysPackage c = true) (hk : ∀ x ∈ k, x ≠ '\n') :
    looksLikeKeysPackage (c ++ (if c.getLast? = some '\n' then [] else ['\n'])
        ++ (if trimSpace c = [] then [] else ['\n']) ++ declLine tbl k v) = true := by
  obtain ⟨mid, _, hsplit⟩ := splitLines_appended_blank tbl c k v h1 hk
  unfold looksLikeKeysPackage
  rw [hsplit, List.append_assoc]
  exact looksLikeKeysPackageLines_append _ _ h1

/-- A call that returns no error although an `os` call is set to fail has not made that
call: it is the call with no failure. -/
theorem writeOrAppendKey_no_error (tbl : Char → Bool) (fault : Option IOOp)
    (outPath c k v : Str) (file₁ : Option Str)
    (h : writeOrAppendKey tbl fault (some c) outPath k v = (file₁, none)) :
    writeOrAppendKey tbl none (some c) outPath k v = (file₁, none) := by
  unfold writeOrAppendKey at h ⊢
  simp only [] at h ⊢
  generalize looksLikeKeysPackage c = a at h ⊢
  generalize keyExists c k = b at h ⊢
  generalize (decide (c.length > 0) && c.getLast? != some '\n') = p at h ⊢
  generalize decide ((trimSpace c).length > 0) = q at h ⊢
  rcases fault with _ | op
  · exact h
  · cases op <;> cases a <;> cases b <;> cases p <;> cases q <;> simp at h ⊢ <;> exact h

/-! ## Lemmas on sequences of calls -/

theorem keyExists_package_line (n : Str) : keyExists "package keys\n".toList n = false := by
  have hs : splitLines "package keys\n".toList = ["package keys".toList, []] := by decide
  unfold keyExists
  rw [hs, Bool.eq_false_iff]
  intro hex
  rcases (keyExistsLines_iff _ _).1 hex with ⟨l, hl, hp, _⟩
  rcases List.mem_cons.1 hl with rfl | hl
  · exact absurd hp (by decide)
  · rw [List.mem_singleton.1 hl] at hp
    exact absurd hp (by decide)

/-- One successful call on a file that ends in a newline: the entry is added. -/
theorem append_step (tbl : Char → Bool) (outPath c k v : Str)
    (hpkg : looksLikeKeysPackage c = true) (hlast : c.getLast? = some '\n')
    (hk : isToken k) (hv : ∀ x ∈ v, x ∈ alphabet) (hnew : keyExists c k = false) :
    writeOrAppendKey tbl none (some c) outPath k v = (some (c ++ entryText (k, v)), none)
      ∧ looksLikeKeysPackage (c ++ entryText (k, v)) = true
      ∧ (c ++ entryText (k, v)).getLast? = some '\n'
      ∧ ∀ n, keyExists (c ++ entryText (k, v)) n = true ↔ (keyExists c n = true ∨ n = k) := by
  have ht := trimSpace_ne_nil_of_looksLike c hpkg
  have hform : c ++ (if c.getLast? = some '\n' then [] else ['\n'])
      ++ (if trimSpace c = [] then [] else ['\n']) ++ declLine tbl k v
      = c ++ entryText (k, v) := by
    rw [if_pos hlast, if_neg ht, declLine_of_alphabet tbl k v hv]
    simp [entryText]
  have h1 := writeOrAppendKey_existing tbl outPath c k v hpkg hnew
  have h2 := looksLikeKeysPackage_appended tbl c k v hpkg (no_newline_of_isToken k hk)
  have h3 := fun n => keyExists_appended tbl c k v hpkg hk n
  rw [hform] at h1 h2
  simp only [hform] at h3
  refine ⟨h1, h2, ?_, h3⟩
  have e : c ++ entryText (k, v)
      = (c ++ "\nconst ".toList ++ k ++ " = \"".toList ++ v ++ "\"".toList) ++ ['\n'] := by
    simp [entryText]
  rw [e, List.getLast?_concat]

/-- The first call, on a path with no file, does what an append to the file that holds
the package line alone does. -/
theorem writeOrAppendKey_bootstrap_eq (tbl : Char → Bool) (outPath k v : Str) :
    writeOrAppendKey tbl none none outPath k v
      = writeOrAppendKey tbl none (some "package keys\n".toList) outPath k v := by
  rw [writeOrAppendKey_existing tbl outPath _ k v (by decide) (keyExists_package_line k)]
  have h1 : ("package keys\n".toList).getLast? = some '\n' := by decide
  have h2 : trimSpace "package keys\n".toList ≠ [] := by decide
  rw [if_pos h1, if_neg h2]
  simp [writeOrAppendKey]

theorem succeeded_names_sub (calls : List (Str × Str)) (errs : List (Option Error)) :
    ∀ kv ∈ succeeded calls errs, kv ∈ calls := by
  induction calls generalizing errs with
  | nil => intro kv h; simp [succeeded] at h
  | cons c calls ih =>
    intro kv h
    cases errs with
    | nil => simp [succeeded] at h
    | cons e errs =>
      cases e with
      | none =>
        rw [succeeded] at h
        rcases List.mem_cons.1 h with rfl | h
        · simp
        · exact List.mem_cons_of_mem _ (ih errs kv h)
      | some e =>
        rw [succeeded] at h
        exact List.mem_cons_of_mem _ (ih errs kv h)

/-- The sequence of calls from a file that passes the identity check, ends in a newline and
declares the names `seen`. -/
theorem runCalls_from (tbl : Char → Bool) (outPath : Str) :
    ∀ (calls : List (Str × Str)) (c : Str) (seen : List Str),
      looksLikeKeysPackage c = true → c.getLast? = some '\n' →
      (∀ n, keyExists c n = true ↔ n ∈ seen) →
      (∀ kv ∈ calls, isToken kv.1) → (∀ kv ∈ calls, ∀ x ∈ kv.2, x ∈ alphabet) →
      (runCalls tbl outPath (some c) calls).1
          = some (c ++ (succeeded calls (runCalls tbl outPath (some c) calls).2).flatMap
              entryText)
        ∧ (runCalls tbl outPath (some c) calls).2.length = calls.length
        ∧ (∀ pre kv post, calls = pre ++ kv :: post →
            (runCalls tbl outPath (some c) calls).2.get? pre.length
              = some (if kv.1 ∈ seen ∨ kv.1 ∈ pre.map Prod.fst
                  then some (.keyAlreadyExists kv.1 outPath) else none))
        ∧ ((succeeded calls (runCalls tbl outPath (some c) calls).2).map Prod.fst).Nodup
        ∧ (∀ kv ∈ succeeded calls (runCalls tbl outPath (some c) calls).2, kv.1 ∉ seen) := by
  intro calls
  induction calls with
  | nil =>
    intro c seen _ _ _ _ _
    refine ⟨by simp [runCalls, succeeded], rfl, ?_, by simp [runCalls, succeeded],
      by simp [runCalls, succeeded]⟩
    intro pre kv post h
    exact absurd h (by simp)
  | cons kv0 rest ih =>
    intro c seen hpkg hlast hseen hnames hvals
    obtain ⟨k, v⟩ := kv0
    have hk : isToken k := hnames (k, v) (by simp)
    have hv : ∀ x ∈ v, x ∈ alphabet := hvals (k, v) (by simp)
    have hnames' : ∀ kv ∈ rest, isToken kv.1 := fun kv h => hnames kv (by simp [h])
    have hvals' : ∀ kv ∈ rest, ∀ x ∈ kv.2, x ∈ alphabet := fun kv h => hvals kv (by simp [h])
    by_cases hin : k ∈ seen
    · -- the name is declared: the call is rejected and the file stays
      have hex : keyExists c k = true := (hseen k).2 hin
      have hstep : writeOrAppendKey tbl none (some c) outPath k v
          = (some c, some (.keyAlreadyExists k outPath)) := by
        simp [writeOrAppendKey, hpkg, hex]
      obtain ⟨i1, i2, i3, i4, i5⟩ := ih c seen hpkg hlast hseen hnames' hvals'
      have hrun : runCalls tbl outPath (some c) ((k, v) :: rest)
          = ((runCalls tbl outPath (some c) rest).1,
              some (.keyAlreadyExists k outPath) :: (runCalls tbl outPath (some c) rest).2) := by
        rw [runCalls]
        simp only [hstep]
      rw [hrun]
      refine ⟨?_, by simp [i2], ?_, ?_, ?_⟩
      · simpa [succeeded] using i1
      · intro pre kv post h
        cases pre with
        | nil =>
          simp only [List.nil_append, List.cons.injEq] at h
          rw [← h.1]
          simp [hin]
        | cons p pre =>
          simp only [List.cons_append, List.cons.injEq] at h
          have := i3 pre kv post h.2
          simp only [List.length_cons, List.get?_cons_succ, this, List.map_cons,
            List.mem_cons]
          congr 1
          apply if_congr _ rfl rfl
          rw [← h.1]
          constructor
          · rintro (h1 | h1)
            · exact Or.inl h1
            · exact Or.inr (Or.inr h1)
          · rintro (h1 | h1 | h1)
            · exact Or.inl h1
            · exact Or.inl (h1 ▸ hin)
            · exact Or.inr h1
      · simpa [succeeded] using i4
      · simpa [succeeded] using i5
    · -- the name is new: the entry is appended
      have hnew : keyExists c k = false := by
        rw [Bool.eq_false_iff]
        exact fun h => hin ((hseen k).1 h)
      obtain ⟨hstep, hpkg₁, hlast₁, hkeys₁⟩ := append_step tbl outPath c k v hpkg hlast hk hv hnew
      have hseen₁ : ∀ n, keyExists (c ++ entryText (k, v)) n = true ↔ n ∈ k :: seen := by
        intro n
        rw [hkeys₁ n, hseen n, List.mem_cons]
        exact Or.comm
      obtain ⟨i1, i2, i3, i4, i5⟩ :=
        ih (c ++ entryText (k, v)) (k :: seen) hpkg₁ hlast₁ hseen₁ hnames' hvals'
      have hrun : runCalls tbl outPath (some c) ((k, v) :: rest)
          = ((runCalls tbl outPath (some (c ++ entryText (k, v))) rest).1,
              none :: (runCalls tbl outPath (some (c ++ entryText (k, v))) rest).2) := by
        rw [runCalls]
        simp only [hstep]
      rw [hrun]
      refine ⟨?_, by simp [i2], ?_, ?_, ?_⟩
      · simp only [succeeded, List.flatMap_cons]
        rw [i1, List.append_assoc]
      · intro pre kv post h
        cases pre with
        | nil =>
          simp only [List.nil_append, List.cons.injEq] at h
          rw [← h.1]
          simp [hin]
        | cons p pre =>
          simp only [List.cons_append, List.cons.injEq] at h
          have := i3 pre kv post h.2
          simp only [List.length_cons, List.get?_cons_succ, this, List.map_cons,
            List.mem_cons]
          congr 1
          apply if_congr _ rfl rfl
          rw [← h.1]
          constructor
          · rintro ((h1 | h1) | h1)
            · exact Or.inr (Or.inl h1)
            · exact Or.inl h1
            · exact Or.inr (Or.inr h1)
          · rintro (h1 | h1 | h1)
            · exact Or.inl (Or.inr h1)
            · exact Or.inl (Or.inl h1)
            · exact Or.inr h1
      · simp only [succeeded, List.map_cons, List.nodup_cons]
        refine ⟨?_, i4⟩
        intro hmem
        rcases List.mem_map.1 hmem with ⟨kv, hkv, hfst⟩
        exact i5 kv hkv (by rw [hfst]; simp)
      · intro kv hkv
        simp only [succeeded, List.mem_cons] at hkv
        rcases hkv with rfl | hkv
        · exact hin
        · exact fun h => i5 kv hkv (List.mem_cons_of_mem _ h)

theorem no_newline_of_alphabet (v : Str) (hv : ∀ x ∈ v, x ∈ alphabet) : ∀ x ∈ v, x ≠ '\n' := by
  intro x hx h
  subst h
  exact absurd (hv _ hx) (by decide)

theorem splitLines_entries (entries : List (Str × Str))
    (h : ∀ kv ∈ entries, (∀ x ∈ kv.1, x ≠ '\n') ∧ (∀ x ∈ kv.2, x ≠ '\n')) :
    splitLines (entries.flatMap entryText) = entries.flatMap entryLines ++ [[]] := by
  induction entries with
  | nil => rfl
  | cons kv rest ih =>
    have hkv := h kv (by simp)
    have hdecl : ∀ x ∈ "const ".toList ++ kv.1 ++ " = \"".toList ++ kv.2 ++ "\"".toList,
        x ≠ '\n' := by
      intro x hx
      simp only [List.mem_append] at hx
      rcases hx with (((hx | hx) | hx) | hx) | hx
      · intro h; subst h; revert hx; decide
      · exact hkv.1 x hx
      · intro h; subst h; revert hx; decide
      · exact hkv.2 x hx
      · intro h; subst h; revert hx; decide
    have e : entryText kv ++ rest.flatMap entryText
        = [] ++ '\n' :: (("const ".toList ++ kv.1 ++ " = \"".toList ++ kv.2 ++ "\"".toList)
            ++ '\n' :: rest.flatMap entryText) := by
      simp [entryText]
    rw [List.flatMap_cons, List.flatMap_cons, e, splitLines_append_newline,
      splitLines_append_newline, splitLines_of_no_newline _ hdecl,
      ih (fun kv h' => h kv (by simp [h']))]
    rfl

theorem trimSpace_cons_c (rest : Str) :
    trimSpace ('c' :: rest) = 'c' :: rest.rdropWhile isSpace := by
  unfold trimSpace
  rw [List.dropWhile_cons_of_neg (by decide)]
  exact rdropWhile_append_barrier isSpace [] rest 'c' (by decide)

theorem entryLines_no_package (entries : List (Str × Str)) :
    (entries.flatMap entryLines).filter
      (fun l => hasPrefix (trimSpace l) "package ".toList) = [] := by
  rw [List.filter_eq_nil_iff]
  intro l hl
  rcases List.mem_flatMap.1 hl with ⟨kv, _, hkv⟩
  simp only [entryLines, List.mem_cons, List.mem_singleton, List.not_mem_nil, or_false] at hkv
  rcases hkv with rfl | rfl
  · decide
  · have e : "const ".toList ++ kv.1 ++ " = \"".toList ++ kv.2 ++ "\"".toList
        = 'c' :: ("onst ".toList ++ kv.1 ++ " = \"".toList ++ kv.2 ++ "\"".toList) := by simp
    rw [e, trimSpace_cons_c]
    simp [hasPrefix]

/-! ## Files produced by the tool -/

/-- C14 (format of the files of the tool). For every sequence of calls of
`writeOrAppendKey` on one path that starts with no file, every name a token and every
value over the alphabet: a call returns no error exactly when its name is not the name of
an earlier call, and otherwise the duplicate-name error; after at least one call the file
is `package keys` and a newline, then for each call that succeeded, in call order, a
blank line and the line `const <Name> = "<Value>"` (after no call there is still no file);
so its lines are the package line, the two lines of each declaration and the empty last
line, the package line is the only line with the prefix `package `, and the declared
names are pairwise distinct. -/
theorem tool_file_format (tbl : Char → Bool) (outPath : Str) (calls : List (Str × Str))
    (hnames : ∀ kv ∈ calls, isToken kv.1)
    (hvals : ∀ kv ∈ calls, ∀ x ∈ kv.2, x ∈ alphabet) :
    (∀ pre kv post, calls = pre ++ kv :: post →
        (runCalls tbl outPath none calls).2.get? pre.length
          = some (if kv.1 ∈ pre.map Prod.fst
              then some (.keyAlreadyExists kv.1 outPath) else none))
      ∧ (runCalls tbl outPath none calls).2.length = calls.length
      ∧ (runCalls tbl outPath none calls).1
          = (if calls = [] then none
              else some ("package keys\n".toList
                ++ (succeeded calls (runCalls tbl outPath none calls).2).flatMap entryText))
      ∧ splitLines ("package keys\n".toList
            ++ (succeeded calls (runCalls tbl outPath none calls).2).flatMap entryText)
          = "package keys".toList
              :: ((succeeded calls (runCalls tbl outPath none calls).2).flatMap entryLines
                ++ [[]])
      ∧ (splitLines ("package keys\n".toList
            ++ (succeeded calls (runCalls tbl outPath none calls).2).flatMap entryText)).filter
            (fun l => hasPrefix (trimSpace l) "package ".toList)
          = ["package keys".toList]
      ∧ ((succeeded calls (runCalls tbl outPath none calls).2).map Prod.fst).Nodup := by
  by_cases hne : calls = []
  · subst hne
    have hs : succeeded [] (runCalls tbl outPath none []).2 = [] := rfl
    rw [hs]
    refine ⟨?_, rfl, by simp [runCalls], by decide, by decide, by simp⟩
    intro pre kv post h
    exact absurd h (by simp)
  have hrun : runCalls tbl outPath none calls
      = runCalls tbl outPath (some "package keys\n".toList) calls := by
    cases calls with
    | nil => exact absurd rfl hne
    | cons kv rest =>
      obtain ⟨k, v⟩ := kv
      rw [runCalls, runCalls, writeOrAppendKey_bootstrap_eq]
  obtain ⟨i1, i2, i3, i4, _⟩ := runCalls_from tbl outPath calls "package keys\n".toList []
    (by decide) (by decide)
    (fun n => by rw [keyExists_package_line]; simp) hnames hvals
  rw [hrun, if_neg hne]
  have hlines : splitLines ("package keys\n".toList
        ++ (succeeded calls (runCalls tbl outPath (some "package keys\n".toList) calls).2).flatMap
          entryText)
      = "package keys".toList
          :: ((succeeded calls
              (runCalls tbl outPath (some "package keys\n".toList) calls).2).flatMap entryLines
            ++ [[]]) := by
    have e : ∀ X : Str, "package keys\n".toList ++ X = "package keys".toList ++ '\n' :: X := by
      intro X; rfl
    rw [e, splitLines_append_newline, splitLines_of_no_newline _ (by decide),
      splitLines_entries]
    · rfl
    · intro kv hkv
      have hmem := succeeded_names_sub _ _ kv hkv
      exact ⟨no_newline_of_isToken _ (hnames kv hmem), no_newline_of_alphabet _ (hvals kv hmem)⟩
  refine ⟨?_, i2, i1, hlines, ?_, i4⟩
  · intro pre kv post h
    rw [i3 pre kv post h]
    congr 1
    apply if_congr _ rfl rfl
    simp
  · rw [hlines, List.filter_cons_of_pos (by decide), List.filter_append,
      entryLines_no_package]
    rfl

theorem tool_file_format_witness :
    runCalls noTable "keys.go".toList none
        [("A".toList, "x1".toList), ("B".toList, "y2".toList), ("A".toList, "z3".toList)]
      = (some "package keys\n\nconst A = \"x1\"\n\nconst B = \"y2\"\n".toList,
          [none, none, some (.keyAlreadyExists "A".toList "keys.go".toList)])
    ∧ (runCalls noTable "keys.go".toList none
        [("A".toList, "x1".toList), ("B".toList, "y2".toList), ("A".toList, "z3".toList)]).1
      = (if [("A".toList, "x1".toList), ("B".toList, "y2".toList), ("A".toList, "z3".toList)]
            = [] then none
          else some ("package keys\n".toList
          ++ (succeeded
              [("A".toList, "x1".toList), ("B".toList, "y2".toList), ("A".toList, "z3".toList)]
              (runCalls noTable "keys.go".toList none
                [("A".toList, "x1".toList), ("B".toList, "y2".toList),
                  ("A".toList, "z3".toList)]).2).flatMap entryText)) :=
  ⟨by decide,
    (tool_file_format noTable "keys.go".toList
      [("A".toList, "x1".toList), ("B".toList, "y2".toList), ("A".toList, "z3".toList)]
      (by decide) (by decide)).2.2.1⟩

/-! ## The append: names, guards -/

/-- C15 (the append adds exactly the new name). For every content `c` on which
`writeOrAppendKey` with a token `k` succeeds, with new content `c₁`, and for every name
`n`: `keyExists` finds `n` in `c₁` exactly when it finds `n` in `c` or `n` is `k`; and `c₁`
still passes the identity check. This holds for every value, alphanumeric or not. -/
theorem append_adds_exactly_the_name (tbl : Char → Bool) (outPath c k v c₁ : Str)
    (hk : isToken k)
    (h : writeOrAppendKey tbl none (some c) outPath k v = (some c₁, none)) :
    (∀ n, keyExists c₁ n = true ↔ (keyExists c n = true ∨ n = k))
      ∧ looksLikeKeysPackage c₁ = true := by
  obtain ⟨hpkg, _, hc⟩ := writeOrAppendKey_success_inv tbl outPath c k v _ h
  rw [Option.some.inj hc]
  exact ⟨fun n => keyExists_appended tbl c k v hpkg hk n,
    looksLikeKeysPackage_appended tbl c k v hpkg (no_newline_of_isToken k hk)⟩

theorem append_adds_exactly_the_name_witness :
    (∀ n, keyExists "package keys\n\nconst A = \"x\"\n\nconst B = \"y9\"\n".toList n = true
        ↔ (keyExists "package keys\n\nconst A = \"x\"\n".toList n = true ∨ n = "B".toList))
      ∧ looksLikeKeysPackage "package keys\n\nconst A = \"x\"\n\nconst B = \"y9\"\n".toList
        = true :=
  append_adds_exactly_the_name noTable "keys.go".toList
    "package keys\n\nconst A = \"x\"\n".toList "B".toList "y9".toList _ (by decide) (by decide)

/-- C16 (the guards on empty content). A content that passes the identity check is not
empty and is not empty once trimmed, so both guards of the append branch hold; hence a
call that returns no error, whatever `os` call is set to fail, has written the newline
that `c` lacks, the blank separator and the line; and a file that is empty or white space
only is never written to: the call returns an error and leaves it as it is, the
wrong-package error when no `os` call fails. -/
theorem empty_guards_never_false (tbl : Char → Bool) (outPath c k v : Str) :
    (looksLikeKeysPackage c = true →
        c ≠ [] ∧ trimSpace c ≠ [] ∧ 0 < c.length ∧ 0 < (trimSpace c).length)
      ∧ (∀ fault c₁, writeOrAppendKey tbl fault (some c) outPath k v = (some c₁, none) →
          c₁ = c ++ (if c.getLast? = some '\n' then [] else ['\n']) ++ "\n".toList
            ++ declLine tbl k v)
      ∧ ((∀ x ∈ c, isSpace x = true) →
          writeOrAppendKey tbl none (some c) outPath k v = (some c, some .notKeysPackage)
            ∧ ∀ fault, (writeOrAppendKey tbl fault (some c) outPath k v).1 = some c
              ∧ (writeOrAppendKey tbl fault (some c) outPath k v).2 ≠ none) := by
  refine ⟨?_, ?_, ?_⟩
  · intro h
    have h1 := ne_nil_of_looksLike c h
    have h2 := trimSpace_ne_nil_of_looksLike c h
    exact ⟨h1, h2, List.length_pos.2 h1, List.length_pos.2 h2⟩
  · intro fault c₁ h
    have h₀ := writeOrAppendKey_no_error tbl fault outPath c k v _ h
    obtain ⟨hpkg, _, hc⟩ := writeOrAppendKey_success_inv tbl outPath c k v _ h₀
    rw [Option.some.inj hc, if_neg (trimSpace_ne_nil_of_looksLike c hpkg)]
    rfl
  · intro hall
    have hno : looksLikeKeysPackage c = false := by
      by_contra hyes
      have hyes' : looksLikeKeysPackage c = true := by simpa using hyes
      exact trimSpace_ne_nil_of_looksLike c hyes' ((trimSpace_eq_nil_iff c).2 hall)
    refine ⟨by simp [writeOrAppendKey, hno], ?_⟩
    intro fault
    unfold writeOrAppendKey
    simp only [hno]
    rcases fault with _ | op
    · simp
    · cases op <;> simp

theorem empty_guards_never_false_witness :
    writeOrAppendKey noTable none (some " \t\n \n".toList) "keys.go".toList "A".toList
        "x".toList = (some " \t\n \n".toList, some .notKeysPackage)
      ∧ "package keys\nconst A = \"x\"\n\nconst B = \"y\"\n".toList
        = "package keys\nconst A = \"x\"".toList ++ ['\n'] ++ "\n".toList
          ++ declLine noTable "B".toList "y".toList :=
  ⟨((empty_guards_never_false noTable "keys.go".toList " \t\n \n".toList "A".toList
      "x".toList).2.2 (by decide)).1,
    (empty_guards_never_false noTable "keys.go".toList "package keys\nconst A = \"x\"".toList
      "B".toList "y".toList).2.1 (some .writeFile) _ (by decide)⟩

/-! ## Lemmas on line endings and white space around lines -/

theorem trimSpace_padded (l l₁ : Str) (h : padded l l₁) : trimSpace l₁ = trimSpace l := by
  obtain ⟨a, b, ha, hb, rfl⟩ := h
  unfold trimSpace
  rw [List.append_assoc, List.dropWhile_append_of_pos ha, List.dropWhile_append]
  by_cases he : (List.dropWhile isSpace l).isEmpty = true
  · have hnil : List.dropWhile isSpace l = [] := List.isEmpty_iff.1 he
    rw [if_pos he, hnil, List.dropWhile_eq_nil_iff.2 (by simpa using hb)]
  · rw [if_neg he]
    exact rdropWhile_append_of_all isSpace _ b hb

/-- Both scans read the lines through `strings.TrimSpace` only. -/
theorem scans_of_trimmed (k : Str) (ls ls₁ : List Str)
    (h : List.Forall₂ (fun l l₁ => trimSpace l₁ = trimSpace l) ls ls₁) :
    looksLikeKeysPackageLines ls₁ = looksLikeKeysPackageLines ls
      ∧ keyExistsLines k ls₁ = keyExistsLines k ls := by
  induction h with
  | nil => exact ⟨rfl, rfl⟩
  | cons hl _ ih =>
    constructor
    · rw [looksLikeKeysPackageLines, looksLikeKeysPackageLines]
      simp only [hl, ih.1]
    · rw [keyExistsLines, keyExistsLines]
      simp only [hl, ih.2]

theorem scans_of_padded (k src src₁ : Str)
    (h : List.Forall₂ padded (splitLines src) (splitLines src₁)) :
    looksLikeKeysPackage src₁ = looksLikeKeysPackage src
      ∧ keyExists src₁ k = keyExists src k := by
  unfold looksLikeKeysPackage keyExists
  exact scans_of_trimmed k _ _ (h.imp (fun l l₁ hp => trimSpace_padded l l₁ hp))

theorem splitLines_crlf (src : Str) :
    List.Forall₂ (fun l l₁ => l₁ = l ∨ l₁ = l ++ ['\r']) (splitLines src)
      (splitLines (crlf src)) := by
  induction src with
  | nil => exact List.Forall₂.cons (Or.inl rfl) List.Forall₂.nil
  | cons c cs ih =>
    by_cases hc : c = '\n'
    · subst hc
      have e1 : splitLines ('\n' :: cs) = [] :: splitLines cs := by simp [splitLines]
      have e2 : splitLines (crlf ('\n' :: cs)) = ['\r'] :: splitLines (crlf cs) := by
        have hr : ('\r' : Char) ≠ '\n' := by decide
        simp [crlf, splitLines, hr]
      rw [e1, e2]
      exact List.Forall₂.cons (Or.inr rfl) ih
    · cases hs : splitLines cs with
      | nil => exact absurd hs (splitLines_ne_nil cs)
      | cons l ls =>
        cases hs₁ : splitLines (crlf cs) with
        | nil => exact absurd hs₁ (splitLines_ne_nil _)
        | cons l₁ ls₁ =>
          rw [hs, hs₁] at ih
          have e1 : splitLines (c :: cs) = (c :: l) :: ls := by simp [splitLines, hc, hs]
          have e2 : splitLines (crlf (c :: cs)) = (c :: l₁) :: ls₁ := by
            simp [crlf, splitLines, hc, hs₁]
          rw [e1, e2]
          cases ih with
          | cons hl htl =>
            refine List.Forall₂.cons ?_ htl
            rcases hl with rfl | rfl
            · exact Or.inl rfl
            · exact Or.inr rfl

theorem splitLines_no_newline (s : Str) : ∀ l ∈ splitLines s, ∀ x ∈ l, x ≠ '\n' := by
  induction s with
  | nil => simp [splitLines]
  | cons c cs ih =>
    intro l hl x hx
    by_cases hc : c = '\n'
    · simp only [splitLines, hc, if_true, List.mem_cons] at hl
      rcases hl with rfl | hl
      · simp at hx
      · exact ih l hl x hx
    · cases hs : splitLines cs with
      | nil => exact absurd hs (splitLines_ne_nil cs)
      | cons l0 ls =>
        simp only [splitLines, hc, if_false, hs, List.mem_cons] at hl
        rcases hl with rfl | hl
        · rcases List.mem_cons.1 hx with rfl | hx
          · exact hc
          · exact ih l0 (by simp [hs]) x hx
        · exact ih l (by simp [hs, hl]) x hx

theorem joinLines_cons_cons (l l' : Str) (ls : List Str) :
    joinLines (l :: l' :: ls) = l ++ '\n' :: joinLines (l' :: ls) := rfl

theorem joinLines_singleton (l : Str) : joinLines [l] = l := rfl

theorem splitLines_joinLines (ls : List Str) (hne : ls ≠ [])
    (h : ∀ l ∈ ls, ∀ x ∈ l, x ≠ '\n') : splitLines (joinLines ls) = ls := by
  induction ls with
  | nil => exact absurd rfl hne
  | cons l rest ih =>
    cases rest with
    | nil => exact splitLines_of_no_newline l (h l (by simp))
    | cons l' rest =>
      rw [joinLines_cons_cons, splitLines_append_newline,
        splitLines_of_no_newline l (h l (by simp)),
        ih (by simp) (fun m hm => h m (by simp [hm]))]
      rfl

theorem joinLines_splitLines (s : Str) : joinLines (splitLines s) = s := by
  induction s with
  | nil => rfl
  | cons c cs ih =>
    by_cases hc : c = '\n'
    · subst hc
      have e1 : splitLines ('\n' :: cs) = [] :: splitLines cs := by simp [splitLines]
      rw [e1]
      cases hs : splitLines cs with
      | nil => exact absurd hs (splitLines_ne_nil cs)
      | cons l ls =>
        rw [joinLines_cons_cons, ← hs, ih]
        rfl
    · cases hs : splitLines cs with
      | nil => exact absurd hs (splitLines_ne_nil cs)
      | cons l ls =>
        have e1 : splitLines (c :: cs) = (c :: l) :: ls := by simp [splitLines, hc, hs]
        rw [e1]
        rw [hs] at ih
        cases ls with
        | nil =>
          rw [joinLines_singleton] at ih ⊢
          rw [ih]
        | cons l' ls =>
          rw [joinLines_cons_cons] at ih ⊢
          rw [← ih]
          rfl

theorem padLines_padded (pads : List (Str × Str)) (ls : List Str)
    (hlen : pads.length = ls.length)
    (hp : ∀ p ∈ pads, (∀ x ∈ p.1, x = ' ' ∨ x = '\t') ∧ (∀ x ∈ p.2, x = ' ' ∨ x = '\t')) :
    List.Forall₂ padded ls (padLines pads ls) := by
  induction pads generalizing ls with
  | nil =>
    cases ls with
    | nil => exact List.Forall₂.nil
    | cons l ls => simp at hlen
  | cons p pads ih =>
    cases ls with
    | nil => simp at hlen
    | cons l ls =>
      have hp0 := hp p (by simp)
      have hsp : ∀ x : Char, x = ' ' ∨ x = '\t' → isSpace x = true := by
        rintro x (rfl | rfl) <;> decide
      refine List.Forall₂.cons ⟨p.1, p.2, fun x hx => hsp x (hp0.1 x hx),
        fun x hx => hsp x (hp0.2 x hx), rfl⟩ ?_
      exact ih ls (by simpa using hlen) (fun q hq => hp q (by simp [hq]))

theorem padLines_no_newline (pads : List (Str × Str)) (ls : List Str)
    (hp : ∀ p ∈ pads, (∀ x ∈ p.1, x = ' ' ∨ x = '\t') ∧ (∀ x ∈ p.2, x = ' ' ∨ x = '\t'))
    (hl : ∀ l ∈ ls, ∀ x ∈ l, x ≠ '\n') :
    ∀ l ∈ padLines pads ls, ∀ x ∈ l, x ≠ '\n' := by
  induction pads generalizing ls with
  | nil => intro l h; simp [padLines] at h
  | cons p pads ih =>
    cases ls with
    | nil => intro l h; simp [padLines] at h
    | cons l0 ls =>
      intro l h x hx
      have hp0 := hp p (by simp)
      have hsp : ∀ x : Char, x = ' ' ∨ x = '\t' → x ≠ '\n' := by
        rintro x (rfl | rfl) <;> decide
      simp only [padLines, List.zipWith_cons_cons, List.mem_cons] at h
      rcases h with rfl | h
      · simp only [List.mem_append] at hx
        rcases hx with (hx | hx) | hx
        · exact hsp x (hp0.1 x hx)
        · exact hl l0 (by simp) x hx
        · exact hsp x (hp0.2 x hx)
      · exact ih ls (fun q hq => hp q (by simp [hq])) (fun m hm => hl m (by simp [hm])) l h x hx

/-! ## Line endings and white space around lines -/

/-- C17 (line endings and white space around lines). For every text and name, neither
`looksLikeKeysPackage` nor `keyExists` changes when every newline is replaced by a
carriage return and a newline, nor when spaces or tabs are added at the start or end of
lines (the lines of the text, each with its additions, joined by newlines again), nor in
any text whose lines are those of the first with white space added around them. -/
theorem scans_ignore_line_endings_and_padding (src k : Str) :
    (looksLikeKeysPackage (crlf src) = looksLikeKeysPackage src
        ∧ keyExists (crlf src) k = keyExists src k)
      ∧ joinLines (splitLines src) = src
      ∧ (∀ pads : List (Str × Str), pads.length = (splitLines src).length →
          (∀ p ∈ pads, (∀ x ∈ p.1, x = ' ' ∨ x = '\t') ∧ (∀ x ∈ p.2, x = ' ' ∨ x = '\t')) →
          splitLines (joinLines (padLines pads (splitLines src)))
              = padLines pads (splitLines src)
            ∧ looksLikeKeysPackage (joinLines (padLines pads (splitLines src)))
              = looksLikeKeysPackage src
            ∧ keyExists (joinLines (padLines pads (splitLines src))) k = keyExists src k)
      ∧ (∀ src₁, List.Forall₂ padded (splitLines src) (splitLines src₁) →
          looksLikeKeysPackage src₁ = looksLikeKeysPackage src
            ∧ keyExists src₁ k = keyExists src k) := by
  refine ⟨?_, joinLines_splitLines src, ?_, fun src₁ h => scans_of_padded k src src₁ h⟩
  · apply scans_of_padded k src (crlf src)
    refine (splitLines_crlf src).imp ?_
    rintro l l₁ (rfl | rfl)
    · exact ⟨[], [], by simp, by simp, by simp⟩
    · exact ⟨[], ['\r'], by simp, by
        intro x hx
        rw [List.mem_singleton.1 hx]
        decide, by simp⟩
  · intro pads hlen hp
    have hpad := padLines_padded pads (splitLines src) hlen hp
    have hne : padLines pads (splitLines src) ≠ [] := by
      intro h
      have hl := hpad.length_eq
      rw [h, List.length_nil] at hl
      exact splitLines_ne_nil src (List.length_eq_zero.1 hl)
    have hsplit := splitLines_joinLines (padLines pads (splitLines src)) hne
      (padLines_no_newline pads _ hp (splitLines_no_newline src))
    refine ⟨hsplit, ?_⟩
    apply scans_of_padded k src
    rw [hsplit]
    exact hpad

theorem scans_ignore_line_endings_and_padding_witness :
    joinLines (padLines [(" ".toList, "\t".toList), ("\t\t".toList, "  ".toList)]
        (splitLines "package keys\nconst A = \"x\"".toList))
      = " package keys\t\n\t\tconst A = \"x\"  ".toList
    ∧ looksLikeKeysPackage " package keys\t\n\t\tconst A = \"x\"  ".toList
      = looksLikeKeysPackage "package keys\nconst A = \"x\"".toList
    ∧ keyExists " package keys\t\n\t\tconst A = \"x\"  ".toList "A".toList
      = keyExists "package keys\nconst A = \"x\"".toList "A".toList
    ∧ crlf "package keys\nconst A = \"x\"\n".toList = "package keys\r\nconst A = \"x\"\r\n".toList
    ∧ keyExists "package keys\r\nconst A = \"x\"\r\n".toList "A".toList
      = keyExists "package keys\nconst A = \"x\"\n".toList "A".toList :=
  ⟨by decide,
    ((scans_ignore_line_endings_and_padding "package keys\nconst A = \"x\"".toList
      "A".toList).2.2.1 [(" ".toList, "\t".toList), ("\t\t".toList, "  ".toList)]
      (by decide) (by decide)).2.1,
    ((scans_ignore_line_endings_and_padding "package keys\nconst A = \"x\"".toList
      "A".toList).2.2.1 [(" ".toList, "\t".toList), ("\t\t".toList, "  ".toList)]
      (by decide) (by decide)).2.2,
    by decide,
    (scans_ignore_line_endings_and_padding "package keys\nconst A = \"x\"\n".toList
      "A".toList).1.2⟩

end Goki
